import Mathlib

/-!
Shallow embedding of the Subverse save editor core (`src/main.py`):
the byte-buffer scanner and patcher of `SaveFileHandler`
(`read_int_properties`, `overwrite_int`, `unpack_int`, `int_to_bytes_le`,
`reverse_string`) and the roster classifier of `CharacterPropertyManager`
(`build_character_property_table`, `get_unlocked_characters`),
together with proofs of the specification claims.

A buffer is a `List Nat` of byte values; text is `List Char`.
A Python call that can raise an uncaught exception is modelled as an
`Option`, where `none` means the call raises.
-/

namespace Subverse

/-- Effective index of the Python slice bound `i` into a sequence of
length `len`: a negative index counts from the end, and the result is
clamped to `[0, len]`. -/
def pyBound (len : Nat) (i : Int) : Nat :=
  if i < 0 then ((len : Int) + i).toNat else min i.toNat len

/-- The Python slice `content[p : p + n]` for a non-negative start `p`. -/
def sliceN (c : List Nat) (p n : Nat) : List Nat := (c.drop p).take n

/-- Unsigned little-endian value of a 4-byte list (missing bytes read
as 0; only ever applied to lists of length exactly 4). -/
def leVal (b : List Nat) : Nat :=
  b.getD 0 0 + 256 * b.getD 1 0 + 65536 * b.getD 2 0 + 16777216 * b.getD 3 0

/-- `SaveFileHandler.unpack_int`: unpack 4 bytes as a little-endian
unsigned integer.  The source raises `ValueError` when fewer than 4
bytes are supplied and `struct.unpack` itself raises when more than 4
are supplied, so the call succeeds exactly on length-4 input. -/
def unpack_int (byte_data : List Nat) : Option Nat :=
  if byte_data.length = 4 then some (leVal byte_data) else none

/-- `SaveFileHandler.int_to_bytes_le`, i.e. `struct.pack('<I', n)`:
defined exactly on unsigned 32-bit values; `none` models the
`struct.error` raise on out-of-range input. -/
def int_to_bytes_le (n : Int) : Option (List Nat) :=
  if 0 ≤ n ∧ n < 2 ^ 32 then
    some [n.toNat % 256, n.toNat / 256 % 256, n.toNat / 65536 % 256,
      n.toNat / 16777216 % 256]
  else none

/-- `SaveFileHandler.overwrite_int`:
`content[:offset] + int_to_bytes_le(new_val) + content[offset + 4:]`.
No bounds check is performed on `offset`; only the packing of
`new_val` can raise. -/
def overwrite_int (content : List Nat) (offset : Int) (new_val : Int) :
    Option (List Nat) :=
  match int_to_bytes_le new_val with
  | none => none
  | some bs =>
      some (content.take (pyBound content.length offset) ++ bs
        ++ content.drop (pyBound content.length (offset + 4)))

/-- `SaveFileHandler.reverse_string`. -/
def reverse_string (s : List Char) : List Char := s.reverse

/-- Constant `PROPERTY_NAME_OFFSET` from the source. -/
def PROPERTY_NAME_OFFSET : Int := -6

/-- The marker byte string `b"IntProperty"`. -/
def markerBytes : List Nat := "IntProperty".toList.map Char.toNat

/-- Whether the pattern `pat` occurs in `c` at position `p`. -/
def matchesAt (c pat : List Nat) (p : Nat) : Bool :=
  decide (sliceN c p pat.length = pat)

/-- `content.find(pat, i)`: the least position `p ≥ i` where `pat`
occurs, `none` when there is no such occurrence. -/
def findFrom (c pat : List Nat) (i : Nat) : Option Nat :=
  (List.range' i (c.length + 1 - i)).find? (fun p => matchesAt c pat p)

/-- The backward zero-byte search of `read_int_properties`
(`while name_end_pos > 0 and content[name_end_pos] != 0`), started at a
non-negative position: returns the position where the loop stops. -/
def nameEndLoop (c : List Nat) : Nat → Nat
  | 0 => 0
  | k + 1 => if c.getD (k + 1) 0 = 0 then k + 1 else nameEndLoop c k

/-- The value of `name_end_pos` (after the final `+= 1`) for the marker
occurrence at `start_pos`: the backward scan starts at
`start_pos + PROPERTY_NAME_OFFSET` and only runs while the position is
positive. -/
def nameEndAt (c : List Nat) (start_pos : Nat) : Int :=
  let name_start_pos : Int := (start_pos : Int) + PROPERTY_NAME_OFFSET
  if 0 < name_start_pos then ((nameEndLoop c (start_pos - 6) : Int) + 1)
  else name_start_pos + 1

/-- Python `str.isprintable` on a single character, modelled from the
CPython behaviour: a character is printable unless its Unicode category
is Other or Separator, except that `' '` is printable.  This is exact
on the Latin-1 range (all names occurring in a save are ASCII); for
higher code points the Unicode category tables live outside this
repository and code points beyond `0xAD` are treated as printable. -/
def pyIsPrintable (ch : Char) : Bool :=
  if ch.toNat < 0x20 then false
  else if ch.toNat ≤ 0x7E then true
  else if ch.toNat < 0xA1 then false
  else if ch.toNat = 0xAD then false
  else true

/-- Valid UTF-8 continuation byte. -/
def utf8Cont (b : Nat) : Bool := 0x80 ≤ b && b < 0xC0

/-- Valid second byte of a 3-byte sequence (excludes overlong forms
after `0xE0` and surrogates after `0xED`). -/
def utf8Mid3 (b1 b2 : Nat) : Bool :=
  if b1 = 0xE0 then 0xA0 ≤ b2 && b2 < 0xC0
  else if b1 = 0xED then 0x80 ≤ b2 && b2 < 0xA0
  else utf8Cont b2

/-- Valid second byte of a 4-byte sequence (excludes overlong forms
after `0xF0` and code points above `0x10FFFF` after `0xF4`). -/
def utf8Mid4 (b1 b2 : Nat) : Bool :=
  if b1 = 0xF0 then 0x90 ≤ b2 && b2 < 0xC0
  else if b1 = 0xF4 then 0x80 ≤ b2 && b2 < 0x90
  else utf8Cont b2

mutual

/-- Strict UTF-8 decoding of a byte list into characters, as performed
by Python's `bytes.decode('utf-8')`: rejects stray continuation bytes,
overlong forms, surrogates and code points above `0x10FFFF`; `none`
models the `UnicodeDecodeError` raise. -/
def utf8Decode : List Nat → Option (List Char)
  | [] => some []
  | b1 :: t1 =>
    if b1 < 0x80 then (utf8Decode t1).map (fun cs => Char.ofNat b1 :: cs)
    else if b1 < 0xC2 then none
    else if b1 < 0xE0 then utf8Dec2 b1 t1
    else if b1 < 0xF0 then utf8Dec3 b1 t1
    else if b1 < 0xF5 then utf8Dec4 b1 t1
    else none

/-- Rest of a 2-byte UTF-8 sequence led by `b1`. -/
def utf8Dec2 (b1 : Nat) : List Nat → Option (List Char)
  | b2 :: t2 =>
    if utf8Cont b2 then
      (utf8Decode t2).map (fun cs =>
        Char.ofNat ((b1 - 0xC0) * 0x40 + (b2 - 0x80)) :: cs)
    else none
  | [] => none

/-- Rest of a 3-byte UTF-8 sequence led by `b1`. -/
def utf8Dec3 (b1 : Nat) : List Nat → Option (List Char)
  | b2 :: b3 :: t3 =>
    if utf8Mid3 b1 b2 && utf8Cont b3 then
      (utf8Decode t3).map (fun cs =>
        Char.ofNat ((b1 - 0xE0) * 0x1000 + (b2 - 0x80) * 0x40 + (b3 - 0x80)) :: cs)
    else none
  | _ => none

/-- Rest of a 4-byte UTF-8 sequence led by `b1`. -/
def utf8Dec4 (b1 : Nat) : List Nat → Option (List Char)
  | b2 :: b3 :: b4 :: t4 =>
    if utf8Mid4 b1 b2 && utf8Cont b3 && utf8Cont b4 then
      (utf8Decode t4).map (fun cs =>
        Char.ofNat ((b1 - 0xF0) * 0x40000 + (b2 - 0x80) * 0x1000
          + (b3 - 0x80) * 0x40 + (b4 - 0x80)) :: cs)
    else none
  | _ => none

end

/-- One discovered integer property: the dictionary
`{'name': ..., 'value': ..., 'data_start': ...}` built by
`read_int_properties`. -/
structure PropRecord where
  name : List Char
  value : Nat
  data_start : Nat
deriving DecidableEq, Repr

/-- The body of the `while` loop of `read_int_properties` for the
marker occurrence at `start_pos`.  `none` models an uncaught exception
(a `UnicodeDecodeError` while decoding the name, or the *uncaught*
`ValueError` from unpacking a short length field); `some none` means no
record is produced for this occurrence (the `name_end_pos > 0` guard
failed, or the `ValueError` from unpacking the value was caught);
`some (some r)` is an appended record. -/
def processMarker (c : List Nat) (start_pos : Nat) : Option (Option PropRecord) :=
  let name_end_pos : Int := nameEndAt c start_pos
  if 0 < name_end_pos then
    match utf8Decode (sliceN c name_end_pos.toNat (start_pos - name_end_pos.toNat)) with
    | none => none
    | some raw_name =>
      let prop_name := (reverse_string raw_name).filter pyIsPrintable
      let int_pos := start_pos + 12
      match unpack_int (sliceN c int_pos 4) with
      | none => none
      | some to_data_length =>
        let start_of_data := int_pos + 4 + to_data_length + 1
        match unpack_int (sliceN c start_of_data 4) with
        | none => some none
        | some value =>
            some (some ⟨reverse_string prop_name, value, start_of_data⟩)
  else some none

/-- The scanning loop of `read_int_properties` from cursor `i`,
structured on explicit fuel (each iteration advances the cursor, so
`c.length` fuel from cursor 0 always suffices).  Returns the records
discovered from cursor `i` on, or `none` when an uncaught exception
aborts the scan. -/
def scanSteps : Nat → List Nat → Nat → Option (List PropRecord)
  | 0, _, _ => some []
  | fuel + 1, c, i =>
    if i < c.length then
      match findFrom c markerBytes i with
      | none => some []
      | some start_pos =>
        match processMarker c start_pos with
        | none => none
        | some none => scanSteps fuel c (start_pos + 1)
        | some (some r) =>
            (scanSteps fuel c (start_pos + 1)).map (fun rs => r :: rs)
    else some []

/-- `SaveFileHandler.read_int_properties` applied to file content that
has already been read: the full scan of the buffer.  `none` models an
uncaught exception escaping the call. -/
def read_int_properties (content : List Nat) : Option (List PropRecord) :=
  scanSteps content.length content 0

/-- Constant `CHARACTERS`: the fixed roster of character slots. -/
def CHARACTERS : List (List Char) :=
  ["DEMI".toList, "Lily".toList, "Kili".toList, "Ela".toList, "Taron".toList,
   "Sova".toList, "Fortune".toList, "Huntress".toList, "Blythe".toList,
   "Fow-Chan".toList]

/-- Constant `PROPERTY_KEYWORDS`: the fixed ordered list of stat-name
fragments. -/
def PROPERTY_KEYWORDS : List (List Char) :=
  ["Level".toList, "CurrentXP".toList, "BlueBallsXP".toList, "UnspentPP".toList,
   "CurrentDevotion".toList, "DevotionLevel".toList]

/-- `prop['name'].split('_')[0]`: the first segment of a name split on
the underscore separator. -/
def firstSegment (name : List Char) : List Char :=
  name.takeWhile (fun ch => ch ≠ '_')

/-- Python's substring test `a in b` on strings: `a` occurs
contiguously in `b` (the empty string occurs in every string). -/
def isSubstring (a b : List Char) : Bool :=
  (List.range (b.length + 1)).any (fun p => a.isPrefixOf (b.drop p))

/-- The keyword matched by a record, following the classifier's loop:
the first configured keyword of which the record's first name segment
is a substring (Python `prop_name_parts[0] in key`), if any. -/
def keyFor (p : PropRecord) : Option (List Char) :=
  PROPERTY_KEYWORDS.find? (fun key => isSubstring (firstSegment p.name) key)

/-- Pointwise update of a map modelled as a function (Python dict
assignment `f[k] = v` on a dict keyed by strings). -/
def updFn (f : List Char → Nat) (k : List Char) (v : Nat) : List Char → Nat :=
  fun x => if x = k then v else f x

/-- One iteration of the loop of
`CharacterPropertyManager.get_unlocked_characters`: the state is the
pair `(character_property_counts, keyword_occurrence_counters)`. -/
def unlockedStep (st : (List Char → Nat) × (List Char → Nat)) (prop : PropRecord) :
    (List Char → Nat) × (List Char → Nat) :=
  match keyFor prop with
  | none => st
  | some key =>
    let index := st.2 key
    if index < CHARACTERS.length then
      (updFn st.1 (CHARACTERS.getD index []) (st.1 (CHARACTERS.getD index []) + 1),
       updFn st.2 key (index + 1))
    else st

/-- `CharacterPropertyManager.get_unlocked_characters`: the resulting
unlocked map, as a predicate on character names (the Python dict holds
exactly the roster names as keys). -/
def get_unlocked_characters (properties : List PropRecord) : List Char → Bool :=
  let st := properties.foldl unlockedStep (fun _ => 0, fun _ => 0)
  fun char => decide (PROPERTY_KEYWORDS.length ≤ st.1 char)

/-- A cell of the per-character table:
`{**prop, 'display_name': f"{key} ({occurrence_index + 1})"}`. -/
structure TableEntry where
  prop : PropRecord
  display_name : List Char
deriving DecidableEq, Repr

/-- The `display_name` string built for occurrence index `index`. -/
def displayName (key : List Char) (index : Nat) : List Char :=
  key ++ (" (").toList ++ (Nat.repr (index + 1)).toList ++ (")").toList

/-- One iteration of the loop of
`CharacterPropertyManager.build_character_property_table`: the state is
the pair `(table, keyword_occurrence_counters)`, the table being the
nested dict `character name -> keyword -> entry`. -/
def tableStep (st : (List Char → List Char → Option TableEntry) × (List Char → Nat))
    (prop : PropRecord) :
    (List Char → List Char → Option TableEntry) × (List Char → Nat) :=
  match keyFor prop with
  | none => st
  | some key =>
    let occurrence_index := st.2 key
    if occurrence_index < CHARACTERS.length then
      let character_name := CHARACTERS.getD occurrence_index []
      (fun a b =>
        if a = character_name ∧ b = key then
          some ⟨prop, displayName key occurrence_index⟩
        else st.1 a b,
       updFn st.2 key (occurrence_index + 1))
    else st

/-- `CharacterPropertyManager.build_character_property_table`: the
final per-character table. -/
def build_character_property_table (properties : List PropRecord) :
    List Char → List Char → Option TableEntry :=
  (properties.foldl tableStep (fun _ _ => none, fun _ => 0)).1

/-! ### Basic facts about slices and searching -/

theorem sliceN_length (c : List Nat) (p n : Nat) :
    (sliceN c p n).length = min n (c.length - p) := by
  simp [sliceN]

theorem sliceN_elem (c : List Nat) (p n j : Nat) (hj : j < n) :
    (sliceN c p n)[j]? = (c)[p + j]? := by
  simp [sliceN, List.getElem?_take, hj, List.getElem?_drop]

theorem matchesAt_bound (c pat : List Nat) (p : Nat) (hp : pat ≠ [])
    (h : matchesAt c pat p = true) : p + pat.length ≤ c.length := by
  have hlen : (sliceN c p pat.length).length = pat.length := by
    rw [of_decide_eq_true h]
  rw [sliceN_length] at hlen
  have : 0 < pat.length := List.length_pos.mpr hp
  omega

theorem find_range'_eq_some (f : Nat → Bool) :
    ∀ (n i s : Nat), (List.range' i n).find? f = some s →
      i ≤ s ∧ s < i + n ∧ f s = true ∧ ∀ q, i ≤ q → q < s → f q = false := by
  intro n
  induction n with
  | zero => intro i s h; simp [List.range'] at h
  | succ n ih =>
    intro i s h
    rw [List.range'_succ i n 1] at h
    by_cases hfi : f i = true
    · rw [List.find?_cons_of_pos _ hfi] at h
      obtain rfl : i = s := by simpa using h
      exact ⟨le_rfl, by omega, hfi, fun q h1 h2 => absurd (lt_of_le_of_lt h1 h2) (lt_irrefl _)⟩
    · rw [List.find?_cons_of_neg _ hfi] at h
      obtain ⟨h1, h2, h3, h4⟩ := ih (i + 1) s h
      refine ⟨by omega, by omega, h3, fun q hq1 hq2 => ?_⟩
      rcases Nat.eq_or_lt_of_le hq1 with rfl | hq1'
      · exact Bool.not_eq_true _ ▸ (by simpa using hfi)
      · exact h4 q hq1' hq2

theorem find_range'_eq_none (f : Nat → Bool) :
    ∀ (n i : Nat), (List.range' i n).find? f = none →
      ∀ q, i ≤ q → q < i + n → f q = false := by
  intro n
  induction n with
  | zero => intro i _ q h1 h2; omega
  | succ n ih =>
    intro i h q h1 h2
    rw [List.range'_succ i n 1] at h
    by_cases hfi : f i = true
    · rw [List.find?_cons_of_pos _ hfi] at h; exact absurd h (by simp)
    · rw [List.find?_cons_of_neg _ hfi] at h
      rcases Nat.eq_or_lt_of_le h1 with rfl | h1'
      · simpa using hfi
      · exact ih (i + 1) h q h1' (by omega)

theorem find_range'_min (f : Nat → Bool) :
    ∀ (n i s : Nat), i ≤ s → s < i + n → f s = true →
      (∀ q, i ≤ q → q < s → f q = false) →
      (List.range' i n).find? f = some s := by
  intro n
  induction n with
  | zero => intro i s h1 h2; omega
  | succ n ih =>
    intro i s h1 h2 h3 h4
    rw [List.range'_succ i n 1]
    rcases Nat.eq_or_lt_of_le h1 with rfl | h1'
    · rw [List.find?_cons_of_pos _ h3]
    · rw [List.find?_cons_of_neg _ (by simpa using h4 i le_rfl h1')]
      exact ih (i + 1) s h1' (by omega) h3 (fun q hq1 hq2 => h4 q (by omega) hq2)

theorem findFrom_eq_some (c pat : List Nat) (i s : Nat)
    (h : findFrom c pat i = some s) :
    i ≤ s ∧ matchesAt c pat s = true ∧
      ∀ q, i ≤ q → q < s → matchesAt c pat q = false := by
  obtain ⟨h1, _, h3, h4⟩ := find_range'_eq_some _ _ _ _ h
  exact ⟨h1, h3, h4⟩

theorem findFrom_eq_none (c pat : List Nat) (i : Nat) (hp : pat ≠ [])
    (h : findFrom c pat i = none) :
    ∀ q, i ≤ q → matchesAt c pat q = false := by
  intro q hq
  by_cases hql : q ≤ c.length
  · exact find_range'_eq_none _ _ _ h q hq (by omega)
  · have hpl : 0 < pat.length := List.length_pos.mpr hp
    by_contra hm
    have := matchesAt_bound c pat q hp (by simpa using hm)
    omega

theorem findFrom_min (c pat : List Nat) (i s : Nat) (hp : pat ≠ [])
    (hm : matchesAt c pat s = true) (his : i ≤ s)
    (hmin : ∀ q, i ≤ q → q < s → matchesAt c pat q = false) :
    findFrom c pat i = some s := by
  have hpl : 0 < pat.length := List.length_pos.mpr hp
  have hb := matchesAt_bound c pat s hp hm
  exact find_range'_min _ _ _ _ his (by omega) hm hmin

theorem markerBytes_ne_nil : markerBytes ≠ [] := by decide

theorem markerBytes_length : markerBytes.length = 11 := by decide

/-! ### Basic facts about the scanning loop -/

theorem scanSteps_stop (fuel : Nat) (c : List Nat) (i : Nat)
    (h : c.length ≤ i) : scanSteps fuel c i = some [] := by
  cases fuel with
  | zero => rfl
  | succ n => simp [scanSteps, Nat.not_lt.mpr h]

theorem scanSteps_found (fuel : Nat) (c : List Nat) (i s : Nat)
    (hi : i < c.length) (hf : findFrom c markerBytes i = some s) :
    scanSteps (fuel + 1) c i =
      match processMarker c s with
      | none => none
      | some none => scanSteps fuel c (s + 1)
      | some (some r) => (scanSteps fuel c (s + 1)).map (fun rs => r :: rs) := by
  rw [scanSteps, if_pos hi, hf]

theorem scanSteps_congr :
    ∀ (f g : Nat) (c : List Nat) (i : Nat), c.length ≤ f + i → c.length ≤ g + i →
      scanSteps f c i = scanSteps g c i := by
  intro f
  induction f with
  | zero =>
    intro g c i h1 h2
    rw [scanSteps_stop 0 c i (by omega), scanSteps_stop g c i (by omega)]
  | succ f ih =>
    intro g c i h1 h2
    by_cases hi : i < c.length
    · match g with
      | 0 => omega
      | g + 1 =>
        simp only [scanSteps, if_pos hi]
        cases hf : findFrom c markerBytes i with
        | none => simp
        | some s =>
          obtain ⟨his, _, _⟩ := findFrom_eq_some c markerBytes i s hf
          have hrec := ih g c (s + 1) (by omega) (by omega)
          dsimp only
          cases hpm : processMarker c s with
          | none => rfl
          | some o =>
            cases o with
            | none => exact hrec
            | some r => rw [hrec]
    · rw [scanSteps_stop _ c i (by omega), scanSteps_stop g c i (by omega)]

/-! ### Claim C2: patching a valid offset is an exact 4-byte frame write -/

/-- The frame property of `overwrite_int` at a valid offset (helper
shared by several claims). -/
theorem overwrite_int_spec (c : List Nat) (offset v : Int)
    (h0 : 0 ≤ offset) (h4 : offset + 4 ≤ (c.length : Int))
    (hv : 0 ≤ v ∧ v < 2 ^ 32) :
    ∃ out, overwrite_int c offset v = some out ∧
      out.length = c.length ∧
      sliceN out offset.toNat 4 =
        [v.toNat % 256, v.toNat / 256 % 256, v.toNat / 65536 % 256,
          v.toNat / 16777216 % 256] ∧
      ∀ j : Nat, j < offset.toNat ∨ offset.toNat + 4 ≤ j →
        (out)[j]? = (c)[j]? := by
  obtain ⟨o, rfl⟩ : ∃ o : Nat, offset = (o : Int) :=
    ⟨offset.toNat, (Int.toNat_of_nonneg h0).symm⟩
  have hton : ((o : Int)).toNat = o := Int.toNat_natCast o
  have hoc : o + 4 ≤ c.length := by omega
  have hbs : int_to_bytes_le v =
      some [v.toNat % 256, v.toNat / 256 % 256, v.toNat / 65536 % 256,
        v.toNat / 16777216 % 256] := by
    rw [int_to_bytes_le, if_pos hv]
  have hb1 : pyBound c.length (o : Int) = o := by
    rw [pyBound, if_neg (by omega : ¬ (o : Int) < 0)]
    omega
  have hb2 : pyBound c.length ((o : Int) + 4) = o + 4 := by
    rw [pyBound, if_neg (by omega : ¬ (o : Int) + 4 < 0)]
    omega
  have hout : overwrite_int c (o : Int) v =
      some (c.take o ++ [v.toNat % 256, v.toNat / 256 % 256, v.toNat / 65536 % 256,
        v.toNat / 16777216 % 256] ++ c.drop (o + 4)) := by
    rw [overwrite_int, hbs, hb1, hb2]
  have htl : (c.take o).length = o := by
    rw [List.length_take]; omega
  refine ⟨_, hout, ?_, ?_, ?_⟩
  · simp only [List.length_append, List.length_take, List.length_drop,
      List.length_cons, List.length_nil]
    omega
  · rw [hton, sliceN, List.append_assoc, List.drop_left' htl,
      List.take_left' (by rfl)]
  · intro j hj
    rw [hton] at hj
    rcases hj with hj | hj
    · have h1 : ((c.take o ++ [v.toNat % 256, v.toNat / 256 % 256,
          v.toNat / 65536 % 256, v.toNat / 16777216 % 256]) ++ c.drop (o + 4))[j]? =
          (c.take o)[j]? := by
        rw [List.append_assoc, List.getElem?_append]
        rw [if_pos (by rw [htl]; omega : j < (c.take o).length)]
      rw [h1, List.getElem?_take, if_pos hj]
    · have hlen2 : (c.take o ++ [v.toNat % 256, v.toNat / 256 % 256,
          v.toNat / 65536 % 256, v.toNat / 16777216 % 256]).length = o + 4 := by
        rw [List.length_append, htl]; rfl
      have h1 : ((c.take o ++ [v.toNat % 256, v.toNat / 256 % 256,
          v.toNat / 65536 % 256, v.toNat / 16777216 % 256]) ++ c.drop (o + 4))[j]? =
          (c.drop (o + 4))[j - (o + 4)]? := by
        rw [List.getElem?_append_right (by omega : (c.take o ++ [v.toNat % 256,
          v.toNat / 256 % 256, v.toNat / 65536 % 256,
          v.toNat / 16777216 % 256]).length ≤ j), hlen2]
      rw [h1, List.getElem?_drop]
      congr 1
      omega

/-- C2: for every buffer, every offset with `0 ≤ offset` and
`offset + 4 ≤ length(buffer)`, and every unsigned 32-bit `new_value`,
`overwrite_int` returns a buffer of identical length in which the 4
bytes at `offset` are the little-endian encoding of `new_value` and
every other byte is identical to the input. -/
theorem c2_overwrite_int_frame (c : List Nat) (offset v : Int)
    (h0 : 0 ≤ offset) (h4 : offset + 4 ≤ (c.length : Int))
    (hv : 0 ≤ v ∧ v < 2 ^ 32) :
    ∃ out, overwrite_int c offset v = some out ∧
      out.length = c.length ∧
      sliceN out offset.toNat 4 =
        [v.toNat % 256, v.toNat / 256 % 256, v.toNat / 65536 % 256,
          v.toNat / 16777216 % 256] ∧
      ∀ j : Nat, j < offset.toNat ∨ offset.toNat + 4 ≤ j →
        (out)[j]? = (c)[j]? :=
  overwrite_int_spec c offset v h0 h4 hv

/-- C2 witness: the theorem applied at a concrete input. -/
theorem c2_witness :
    0 ≤ (1 : Int) ∧ (1 : Int) + 4 ≤ (([1, 2, 3, 4, 5, 6] : List Nat).length : Int) ∧
      (0 ≤ (258 : Int) ∧ (258 : Int) < 2 ^ 32) ∧
      ∃ out, overwrite_int [1, 2, 3, 4, 5, 6] 1 258 = some out ∧
        out.length = ([1, 2, 3, 4, 5, 6] : List Nat).length ∧
        sliceN out (1 : Int).toNat 4 =
          [(258 : Int).toNat % 256, (258 : Int).toNat / 256 % 256,
            (258 : Int).toNat / 65536 % 256, (258 : Int).toNat / 16777216 % 256] ∧
        ∀ j : Nat, j < (1 : Int).toNat ∨ (1 : Int).toNat + 4 ≤ j →
          (out)[j]? = (([1, 2, 3, 4, 5, 6] : List Nat))[j]? :=
  ⟨by decide, by decide, ⟨by decide, by decide⟩,
    c2_overwrite_int_frame [1, 2, 3, 4, 5, 6] 1 258 (by decide) (by decide)
      ⟨by decide, by decide⟩⟩

/-! ### Claim C8: patch-time validation -/

/-- C8 counterexample: an offset that is not addressable
(`offset + 4 > length(buffer)`) is not rejected — `overwrite_int`
succeeds and silently returns a buffer of a different length, instead
of failing before any byte is written. -/
theorem c8_counterexample :
    overwrite_int [0, 0, 0, 0] 2 1 = some [0, 0, 1, 0, 0, 0] ∧
      ([0, 0, 1, 0, 0, 0] : List Nat).length ≠ ([0, 0, 0, 0] : List Nat).length := by
  constructor
  · decide
  · decide

/-- C8 amended: a `new_value` that is not representable as an unsigned
32-bit integer makes `overwrite_int` fail with an error (the
`struct.error` raise, modelled as `none`), surfacing to the caller
before any output buffer is produced — the input buffer itself is
never mutated.  Offsets, however, are not validated: for every
in-range value the call succeeds no matter the offset (and an
out-of-range offset can change the buffer length, see the
counterexample). -/
theorem c8_value_range_checked (c : List Nat) (offset v : Int) :
    (v < 0 ∨ 2 ^ 32 ≤ v → overwrite_int c offset v = none) ∧
    (0 ≤ v → v < 2 ^ 32 → ∃ out, overwrite_int c offset v = some out) := by
  constructor
  · intro h
    rw [overwrite_int, int_to_bytes_le, if_neg (by omega)]
  · intro h1 h2
    rw [overwrite_int, int_to_bytes_le, if_pos ⟨h1, h2⟩]
    exact ⟨_, rfl⟩

/-- C8 witness: the amended theorem applied at concrete inputs. -/
theorem c8_witness :
    ((2 : Int) ^ 32 < 0 ∨ 2 ^ 32 ≤ (2 : Int) ^ 32) ∧
      overwrite_int [1, 2, 3, 4] 0 ((2 : Int) ^ 32) = none ∧
      (0 ≤ (7 : Int) ∧ (7 : Int) < 2 ^ 32) ∧
      (∃ out, overwrite_int [1, 2, 3, 4] 99 7 = some out) :=
  ⟨Or.inr le_rfl,
    (c8_value_range_checked [1, 2, 3, 4] 0 ((2 : Int) ^ 32)).1 (Or.inr le_rfl),
    ⟨by decide, by decide⟩,
    (c8_value_range_checked [1, 2, 3, 4] 99 7).2 (by decide) (by decide)⟩

/-! ### Facts about the backward name scan and marker processing -/

theorem nameEndLoop_no_zero (c : List Nat) :
    ∀ p, (∀ j, 0 < j → j ≤ p → c.getD j 0 ≠ 0) → nameEndLoop c p = 0 := by
  intro p
  induction p with
  | zero => intro _; rfl
  | succ p ih =>
    intro h
    rw [nameEndLoop, if_neg (h (p + 1) (by omega) le_rfl)]
    exact ih (fun j h1 h2 => h j h1 (by omega))

theorem nameEndLoop_eq_zero_pos (c : List Nat) :
    ∀ p z, 0 < z → z ≤ p → c.getD z 0 = 0 →
      (∀ j, z < j → j ≤ p → c.getD j 0 ≠ 0) → nameEndLoop c p = z := by
  intro p
  induction p with
  | zero => intro z h1 h2 _ _; omega
  | succ p ih =>
    intro z h1 h2 hz hnz
    rcases Nat.eq_or_lt_of_le h2 with rfl | h2'
    · rw [nameEndLoop, if_pos hz]
    · rw [nameEndLoop, if_neg (hnz (p + 1) (by omega) le_rfl)]
      exact ih z h1 (by omega) hz (fun j ha hb => hnz j ha (by omega))

theorem nameEndAt_low (c : List Nat) (s : Nat) (h : s < 6) :
    nameEndAt c s = (s : Int) - 5 := by
  rw [nameEndAt]
  simp only [PROPERTY_NAME_OFFSET]
  rw [if_neg (by omega)]
  omega

theorem nameEndAt_no_zero (c : List Nat) (s : Nat) (h6 : 6 ≤ s)
    (hnz : ∀ j, 0 < j → j ≤ s - 6 → c.getD j 0 ≠ 0) : nameEndAt c s = 1 := by
  rw [nameEndAt]
  simp only [PROPERTY_NAME_OFFSET]
  by_cases h7 : 7 ≤ s
  · rw [if_pos (by omega)]
    rw [nameEndLoop_no_zero c (s - 6) hnz]
    rfl
  · have hs : s = 6 := by omega
    subst hs
    rw [if_neg (by omega)]
    decide

theorem nameEndAt_found (c : List Nat) (s z : Nat) (h7 : 7 ≤ s)
    (hz1 : 0 < z) (hz2 : z ≤ s - 6) (hz : c.getD z 0 = 0)
    (hnz : ∀ j, z < j → j ≤ s - 6 → c.getD j 0 ≠ 0) :
    nameEndAt c s = (z : Int) + 1 := by
  rw [nameEndAt]
  simp only [PROPERTY_NAME_OFFSET]
  rw [if_pos (by omega), nameEndLoop_eq_zero_pos c (s - 6) z hz1 hz2 hz hnz]

theorem processMarker_skip_low (c : List Nat) (s : Nat) (h : s < 6) :
    processMarker c s = some none := by
  rw [processMarker]
  simp only [nameEndAt_low c s h]
  rw [if_neg (by omega)]

/-- The processing of one marker occurrence, with the intermediate
`let`-bound Python locals expanded. -/
theorem processMarker_eq (c : List Nat) (s : Nat) : processMarker c s =
    if 0 < nameEndAt c s then
      match utf8Decode (sliceN c (nameEndAt c s).toNat (s - (nameEndAt c s).toNat)) with
      | none => none
      | some raw_name =>
        match unpack_int (sliceN c (s + 12) 4) with
        | none => none
        | some to_data_length =>
          match unpack_int (sliceN c (s + 12 + 4 + to_data_length + 1) 4) with
          | none => some none
          | some value =>
              some (some ⟨reverse_string ((reverse_string raw_name).filter pyIsPrintable),
                value, s + 12 + 4 + to_data_length + 1⟩)
    else some none := rfl

/-- Inversion: a produced record determines the shape of every field. -/
theorem processMarker_some_inv (c : List Nat) (s : Nat) (r : PropRecord)
    (h : processMarker c s = some (some r)) :
    0 < nameEndAt c s ∧ ∃ raw L v,
      utf8Decode (sliceN c (nameEndAt c s).toNat (s - (nameEndAt c s).toNat)) = some raw ∧
      unpack_int (sliceN c (s + 12) 4) = some L ∧
      unpack_int (sliceN c (s + 12 + 4 + L + 1) 4) = some v ∧
      r = ⟨reverse_string ((reverse_string raw).filter pyIsPrintable), v,
        s + 12 + 4 + L + 1⟩ := by
  rw [processMarker_eq] at h
  split at h
  · rename_i hne
    split at h
    · exact absurd h (by simp)
    · rename_i raw hdec
      split at h
      · exact absurd h (by simp)
      · rename_i L hlen
        split at h
        · exact absurd h (by simp)
        · rename_i v hval
          simp only [Option.some.injEq] at h
          exact ⟨hne, raw, L, v, hdec, hlen, hval, h.symm⟩
  · exact absurd h (by simp)

/-- Every record in the output of the scanning loop comes from some
processed marker occurrence. -/
theorem scanSteps_mem_inv (c : List Nat) :
    ∀ (fuel i : Nat) (rs : List PropRecord), scanSteps fuel c i = some rs →
      ∀ r ∈ rs, ∃ s, processMarker c s = some (some r) := by
  intro fuel
  induction fuel with
  | zero =>
    intro i rs h r hr
    obtain rfl : ([] : List PropRecord) = rs := by simpa [scanSteps] using h
    simp at hr
  | succ fuel ih =>
    intro i rs h r hr
    by_cases hi : i < c.length
    · cases hf : findFrom c markerBytes i with
      | none =>
        rw [scanSteps, if_pos hi, hf] at h
        obtain rfl : ([] : List PropRecord) = rs := by simpa using h
        simp at hr
      | some s =>
        rw [scanSteps_found fuel c i s hi hf] at h
        cases hpm : processMarker c s with
        | none => rw [hpm] at h; exact absurd h (by simp)
        | some o =>
          rw [hpm] at h
          cases o with
          | none => exact ih (s + 1) rs h r hr
          | some r0 =>
            simp only [Option.map_eq_some'] at h
            obtain ⟨rest, hrest, rfl⟩ := h
            rcases List.mem_cons.mp hr with rfl | hr'
            · exact ⟨s, hpm⟩
            · exact ih (s + 1) rest hrest r hr'
    · rw [scanSteps_stop _ _ _ (by omega)] at h
      obtain rfl : ([] : List PropRecord) = rs := by simpa using h
      simp at hr

/-- A marker occurrence whose processing yields no record makes the
scan continue from the position after the marker, leaving every other
record unaffected. -/
theorem scanSteps_skip (c : List Nat) (fuel i s : Nat)
    (hfuel : c.length ≤ fuel + i)
    (hf : findFrom c markerBytes i = some s)
    (hpm : processMarker c s = some none) :
    scanSteps fuel c i = scanSteps fuel c (s + 1) := by
  obtain ⟨his, hm, _⟩ := findFrom_eq_some _ _ _ _ hf
  have hs11 : s + 11 ≤ c.length := by
    have := matchesAt_bound c markerBytes s markerBytes_ne_nil hm
    rwa [markerBytes_length] at this
  have hi : i < c.length := by omega
  obtain ⟨f, rfl⟩ : ∃ f, fuel = f + 1 := ⟨fuel - 1, by omega⟩
  rw [scanSteps_found f c i s hi hf, hpm]
  exact scanSteps_congr f (f + 1) c (s + 1) (by omega) (by omega)

/-! ### Claim C6: records skipped by the backward name scan -/

/-- The buffer used to refute C6: seven nonzero bytes, the marker, a
separator, a zero length field, a separator, and the value 42. -/
def bufNoZero : List Nat :=
  [65, 65, 65, 65, 65, 65, 65] ++ markerBytes ++ [0] ++ [0, 0, 0, 0] ++ [0]
    ++ [42, 0, 0, 0]

/-- C6 counterexample: in `bufNoZero` the marker is at position 7 and
no zero byte exists anywhere before it, so the backward scan finds no
zero byte — yet the scan still returns a record for that occurrence
(with the name taken from position 1 up to the marker) instead of
skipping it. -/
theorem c6_counterexample :
    (∀ j, j ≤ 6 → bufNoZero.getD j 0 ≠ 0) ∧
      findFrom bufNoZero markerBytes 0 = some 7 ∧
      read_int_properties bufNoZero =
        some [⟨['A', 'A', 'A', 'A', 'A', 'A'], 42, 24⟩] := by
  refine ⟨?_, by decide, by decide⟩
  decide

/-- C6 amended: when the backward scan runs out of buffer without
finding a zero byte, the record is *not* skipped — `name_end_pos`
lands at 1 and the name is taken from position 1 up to the marker.  A
marker occurrence is skipped by the name heuristic exactly when the
marker position is below 6 (the backward-scan start
`start_pos - 6` is not positive, and `name_end_pos = start_pos - 5`
fails the positivity gate); such an occurrence produces no record and
the scan continues from `start_pos + 1` without failing. -/
theorem c6_amended (c : List Nat) (s : Nat) :
    (6 ≤ s → (∀ j, 0 < j → j ≤ s - 6 → c.getD j 0 ≠ 0) → nameEndAt c s = 1) ∧
    (∀ fuel i, c.length ≤ fuel + i → findFrom c markerBytes i = some s →
      s < 6 → scanSteps fuel c i = scanSteps fuel c (s + 1)) := by
  constructor
  · exact fun h6 hnz => nameEndAt_no_zero c s h6 hnz
  · intro fuel i hfuel hf hs
    exact scanSteps_skip c fuel i s hfuel hf (processMarker_skip_low c s hs)

/-- C6 witness: the amended theorem applied at concrete inputs.  The
first part is applied to `bufNoZero` (backward scan from position 1
finds no zero); the second to a buffer whose marker sits at
position 0. -/
theorem c6_witness :
    (6 ≤ 7 ∧ (∀ j, 0 < j → j ≤ 7 - 6 → bufNoZero.getD j 0 ≠ 0) ∧
      nameEndAt bufNoZero 7 = 1) ∧
    (markerBytes.length ≤ 15 + 0 ∧ findFrom markerBytes markerBytes 0 = some 0 ∧
      0 < 6 ∧ scanSteps 15 markerBytes 0 = scanSteps 15 markerBytes 1) :=
  ⟨⟨by decide, by intro j h1 h2; have hj : j = 1 := (by omega); subst hj; decide,
      (c6_amended bufNoZero 7).1 (by decide)
        (by intro j h1 h2; have hj : j = 1 := (by omega); subst hj; decide)⟩,
    ⟨by decide, by decide, by decide,
      (c6_amended markerBytes 0).2 15 0 (by decide) (by decide) (by decide)⟩⟩

/-! ### Claim C1: which truncations are per-record -/

/-- A marker occurrence whose value slice is short — but whose length
field is intact — is processed into no record. -/
theorem processMarker_value_truncated (c : List Nat) (s L : Nat) (nm : List Char)
    (hname : 0 < nameEndAt c s)
    (hdec : utf8Decode (sliceN c (nameEndAt c s).toNat (s - (nameEndAt c s).toNat))
      = some nm)
    (hlen : unpack_int (sliceN c (s + 12) 4) = some L)
    (hval : (sliceN c (s + 12 + 4 + L + 1) 4).length ≠ 4) :
    processMarker c s = some none := by
  rw [processMarker_eq, if_pos hname, hdec]
  dsimp only
  rw [hlen]
  dsimp only
  rw [unpack_int, if_neg hval]

/-- The buffer used for C1: one well-formed record, after which a
second marker occurrence sits at the very end of the buffer, leaving
no room for its 4-byte length field. -/
def bufValid : List Nat :=
  [0, 65, 65, 65, 65, 65] ++ markerBytes ++ [0] ++ [0, 0, 0, 0] ++ [0]
    ++ [42, 0, 0, 0]

/-- C1 counterexample: alone, `bufValid` scans to one valid record;
appending a marker occurrence with a truncated *length field* makes
the whole scan raise (the `ValueError` from `unpack_int` at the length
field is outside the `try`), so the earlier valid record is lost —
refuting that scan-time errors are always per-record and non-fatal. -/
theorem c1_counterexample :
    read_int_properties bufValid = some [⟨['A', 'A', 'A', 'A', 'A'], 42, 23⟩] ∧
      read_int_properties (bufValid ++ markerBytes) = none := by
  constructor
  · decide
  · decide

/-- C1 amended: only a truncation at the *value* field is per-record
and non-fatal: a marker occurrence whose 4-byte length field is intact
but which leaves fewer than 4 bytes at the computed value position is
reported and skipped, and the scan continues from `start_pos + 1` with
every earlier and later record unaffected.  A marker occurrence with
too few bytes for the 4-byte *length field* instead raises the
`ValueError` out of the whole scan (see the counterexample). -/
theorem c1_truncated_value_skipped (c : List Nat) (fuel i s L : Nat) (nm : List Char)
    (hfuel : c.length ≤ fuel + i)
    (hf : findFrom c markerBytes i = some s)
    (hname : 0 < nameEndAt c s)
    (hdec : utf8Decode (sliceN c (nameEndAt c s).toNat (s - (nameEndAt c s).toNat))
      = some nm)
    (hlen : unpack_int (sliceN c (s + 12) 4) = some L)
    (hval : (sliceN c (s + 12 + 4 + L + 1) 4).length < 4) :
    scanSteps fuel c i = scanSteps fuel c (s + 1) := by
  exact scanSteps_skip c fuel i s hfuel hf
    (processMarker_value_truncated c s L nm hname hdec hlen (by omega))

/-- The buffer used for the C1 witness: a record whose value field is
cut off after 2 bytes. -/
def bufShortVal : List Nat :=
  [0, 65, 65, 65, 65, 65] ++ markerBytes ++ [0] ++ [0, 0, 0, 0] ++ [0] ++ [42, 0]

/-- C1 witness: the amended theorem applied at a concrete input. -/
theorem c1_witness :
    bufShortVal.length ≤ 25 + 0 ∧
      findFrom bufShortVal markerBytes 0 = some 6 ∧
      0 < nameEndAt bufShortVal 6 ∧
      utf8Decode (sliceN bufShortVal (nameEndAt bufShortVal 6).toNat
        (6 - (nameEndAt bufShortVal 6).toNat)) = some ['A', 'A', 'A', 'A', 'A'] ∧
      unpack_int (sliceN bufShortVal (6 + 12) 4) = some 0 ∧
      (sliceN bufShortVal (6 + 12 + 4 + 0 + 1) 4).length < 4 ∧
      scanSteps 25 bufShortVal 0 = scanSteps 25 bufShortVal (6 + 1) :=
  ⟨by decide, by decide, by decide, by decide, by decide, by decide,
    c1_truncated_value_skipped bufShortVal 25 0 6 0 ['A', 'A', 'A', 'A', 'A']
      (by decide) (by decide) (by decide) (by decide) (by decide) (by decide)⟩

/-! ### Claim C10: value invariants of returned records -/

/-- C10: for every input buffer, every record the scan returns
satisfies `data_start + 4 ≤ length(buffer)`, and its value is exactly
the unsigned little-endian decoding of the 4 buffer bytes starting at
`data_start`. -/
theorem c10_record_invariant (c : List Nat) (rs : List PropRecord)
    (h : read_int_properties c = some rs) :
    ∀ r ∈ rs, r.data_start + 4 ≤ c.length ∧
      unpack_int (sliceN c r.data_start 4) = some r.value := by
  intro r hr
  obtain ⟨s, hpm⟩ := scanSteps_mem_inv c c.length 0 rs h r hr
  obtain ⟨hne, raw, L, v, hdec, hlen, hval, hrec⟩ := processMarker_some_inv c s r hpm
  have hsl : (sliceN c (s + 12 + 4 + L + 1) 4).length = 4 := by
    by_contra hcon
    rw [unpack_int, if_neg hcon] at hval
    exact absurd hval (by simp)
  rw [sliceN_length] at hsl
  subst hrec
  exact ⟨by simp only; omega, hval⟩

/-- C10 witness: the theorem applied at a concrete input. -/
theorem c10_witness :
    read_int_properties bufNoZero = some [⟨['A', 'A', 'A', 'A', 'A', 'A'], 42, 24⟩] ∧
      (⟨['A', 'A', 'A', 'A', 'A', 'A'], 42, 24⟩ : PropRecord) ∈
        [(⟨['A', 'A', 'A', 'A', 'A', 'A'], 42, 24⟩ : PropRecord)] ∧
      ((24 : Nat) + 4 ≤ bufNoZero.length ∧
        unpack_int (sliceN bufNoZero 24 4) = some 42) :=
  ⟨by decide, by decide,
    c10_record_invariant bufNoZero [⟨['A', 'A', 'A', 'A', 'A', 'A'], 42, 24⟩]
      (by decide) ⟨['A', 'A', 'A', 'A', 'A', 'A'], 42, 24⟩ (by decide)⟩

/-! ### Claim C7: name decoding and normalization -/

/-- C7: every record the scan returns takes its name from the decoded
bytes between the zero-byte boundary (`name_end_pos`) and the marker,
reversed, stripped of non-printable characters, and reversed again —
so the name equals the decoded stored bytes in forward (storage) order
with non-printables stripped, and contains printable characters
only. -/
theorem c7_name_normalization (c : List Nat) (rs : List PropRecord)
    (h : read_int_properties c = some rs) :
    ∀ r ∈ rs, ∃ s raw,
      0 < nameEndAt c s ∧
      utf8Decode (sliceN c (nameEndAt c s).toNat (s - (nameEndAt c s).toNat))
        = some raw ∧
      r.name = reverse_string ((reverse_string raw).filter pyIsPrintable) ∧
      r.name = raw.filter pyIsPrintable ∧
      ∀ ch ∈ r.name, pyIsPrintable ch = true := by
  intro r hr
  obtain ⟨s, hpm⟩ := scanSteps_mem_inv c c.length 0 rs h r hr
  obtain ⟨hne, raw, L, v, hdec, hlen, hval, hrec⟩ := processMarker_some_inv c s r hpm
  have hflip : reverse_string ((reverse_string raw).filter pyIsPrintable)
      = raw.filter pyIsPrintable := by
    simp only [reverse_string]
    rw [List.filter_reverse, List.reverse_reverse]
  refine ⟨s, raw, hne, hdec, ?_, ?_, ?_⟩
  · rw [hrec]
  · rw [hrec]
    exact hflip
  · rw [hrec]
    simp only
    rw [hflip]
    intro ch hch
    exact List.of_mem_filter hch

/-- C7 witness: the theorem applied at a concrete input. -/
theorem c7_witness :
    read_int_properties bufNoZero = some [⟨['A', 'A', 'A', 'A', 'A', 'A'], 42, 24⟩] ∧
      (⟨['A', 'A', 'A', 'A', 'A', 'A'], 42, 24⟩ : PropRecord) ∈
        [(⟨['A', 'A', 'A', 'A', 'A', 'A'], 42, 24⟩ : PropRecord)] ∧
      (∃ s raw,
        0 < nameEndAt bufNoZero s ∧
        utf8Decode (sliceN bufNoZero (nameEndAt bufNoZero s).toNat
          (s - (nameEndAt bufNoZero s).toNat)) = some raw ∧
        (⟨['A', 'A', 'A', 'A', 'A', 'A'], 42, 24⟩ : PropRecord).name
          = reverse_string ((reverse_string raw).filter pyIsPrintable) ∧
        (⟨['A', 'A', 'A', 'A', 'A', 'A'], 42, 24⟩ : PropRecord).name
          = raw.filter pyIsPrintable ∧
        ∀ ch ∈ (⟨['A', 'A', 'A', 'A', 'A', 'A'], 42, 24⟩ : PropRecord).name,
          pyIsPrintable ch = true) :=
  ⟨by decide, by decide,
    c7_name_normalization bufNoZero [⟨['A', 'A', 'A', 'A', 'A', 'A'], 42, 24⟩]
      (by decide) ⟨['A', 'A', 'A', 'A', 'A', 'A'], 42, 24⟩ (by decide)⟩

/-! ### Classifier machinery shared by C3 and C5 -/

/-- The subsequence of records whose first matching keyword is `K`,
in traversal order. -/
def matchedBy (props : List PropRecord) (K : List Char) : List PropRecord :=
  props.filter (fun p => decide (keyFor p = some K))

/-- The table entry built for the `n`-th occurrence of keyword `K`. -/
def mkEntry (K : List Char) (n : Nat) (p : PropRecord) : TableEntry :=
  ⟨p, displayName K n⟩

theorem keyFor_mem (p : PropRecord) (K : List Char) (h : keyFor p = some K) :
    K ∈ PROPERTY_KEYWORDS :=
  List.mem_of_find?_eq_some h

theorem characters_getD_inj :
    ∀ n < CHARACTERS.length, ∀ m < CHARACTERS.length,
      CHARACTERS.getD n [] = CHARACTERS.getD m [] → n = m := by
  decide

theorem keywords_nodup : PROPERTY_KEYWORDS.Nodup := by decide

theorem matchedBy_cons (p : PropRecord) (rest : List PropRecord) (K : List Char) :
    matchedBy (p :: rest) K =
      (if keyFor p = some K then [p] else []) ++ matchedBy rest K := by
  rw [matchedBy, List.filter_cons]
  by_cases h : keyFor p = some K
  · rw [if_pos (by simpa using h), if_pos h]
    rfl
  · rw [if_neg (by simpa using h), if_neg h]
    rfl

theorem append_single_elem (l : List PropRecord) (p : PropRecord) (n : Nat) :
    (l ++ [p])[n]? =
      if n < l.length then (l)[n]? else if n = l.length then some p else none := by
  rw [List.getElem?_append]
  by_cases h1 : n < l.length
  · rw [if_pos h1, if_pos h1]
  · rw [if_neg h1, if_neg h1]
    by_cases h2 : n = l.length
    · subst h2
      simp
    · rw [if_neg h2]
      have : 1 ≤ n - l.length := by omega
      rcases hk : n - l.length with _ | k
      · omega
      · simp

theorem tableStep_none (st : (List Char → List Char → Option TableEntry) × (List Char → Nat))
    (p : PropRecord) (hk : keyFor p = none) : tableStep st p = st := by
  rw [tableStep, hk]

theorem tableStep_some (st : (List Char → List Char → Option TableEntry) × (List Char → Nat))
    (p : PropRecord) (K0 : List Char) (hk : keyFor p = some K0) :
    tableStep st p =
      if st.2 K0 < CHARACTERS.length then
        (fun a b =>
          if a = CHARACTERS.getD (st.2 K0) [] ∧ b = K0 then
            some ⟨p, displayName K0 (st.2 K0)⟩
          else st.1 a b,
         updFn st.2 K0 (st.2 K0 + 1))
      else st := by
  rw [tableStep, hk]

theorem unlockedStep_none (st : (List Char → Nat) × (List Char → Nat))
    (p : PropRecord) (hk : keyFor p = none) : unlockedStep st p = st := by
  rw [unlockedStep, hk]

theorem unlockedStep_some (st : (List Char → Nat) × (List Char → Nat))
    (p : PropRecord) (K0 : List Char) (hk : keyFor p = some K0) :
    unlockedStep st p =
      if st.2 K0 < CHARACTERS.length then
        (updFn st.1 (CHARACTERS.getD (st.2 K0) [])
          (st.1 (CHARACTERS.getD (st.2 K0) []) + 1),
         updFn st.2 K0 (st.2 K0 + 1))
      else st := by
  rw [unlockedStep, hk]

/-- Counting lemma: flipping a nodup list's filter predicate from
false to true at exactly one member grows the filtered length by 1. -/
theorem filter_flip_length (l : List (List Char)) (hnd : l.Nodup) (a : List Char)
    (ha : a ∈ l) (P Q : List Char → Bool)
    (hPQ : ∀ x ∈ l, x ≠ a → P x = Q x) (hPa : P a = false) (hQa : Q a = true) :
    (l.filter Q).length = (l.filter P).length + 1 := by
  induction l with
  | nil => simp at ha
  | cons x xs ih =>
    have hnd' : xs.Nodup := (List.nodup_cons.mp hnd).2
    rcases List.mem_cons.mp ha with heq | ha'
    · have hxs : ∀ y ∈ xs, P y = Q y := by
        intro y hy
        refine hPQ y (List.mem_cons_of_mem x hy) ?_
        intro hya
        apply (List.nodup_cons.mp hnd).1
        rw [← heq, ← hya]
        exact hy
      rw [List.filter_cons, List.filter_cons,
        if_pos (show Q x = true from heq ▸ hQa),
        if_neg (show ¬ P x = true by rw [← heq]; simp [hPa]),
        List.filter_congr hxs]
      simp
    · by_cases hx : x = a
      · exact absurd (show x ∈ xs by rw [hx]; exact ha') (List.nodup_cons.mp hnd).1
      · have hPx : P x = Q x := hPQ x (List.mem_cons_self x xs) hx
        rw [List.filter_cons, List.filter_cons, ← hPx]
        have hrec := ih hnd' ha' (fun y hy hya => hPQ y (List.mem_cons_of_mem x hy) hya)
        by_cases hPxT : P x = true
        · rw [if_pos hPxT, if_pos hPxT]
          simp [hrec]
        · rw [if_neg hPxT, if_neg hPxT]
          exact hrec

/-- Invariant of the `build_character_property_table` fold: `g K` is
the list of records already matched to keyword `K`; the counter is its
(clamped) length and each roster cell holds the occurrence with its
slot's index. -/
theorem tableFold_inv (rest : List PropRecord) :
    ∀ (T : List Char → List Char → Option TableEntry) (cnt : List Char → Nat)
      (g : List Char → List PropRecord),
      (∀ K ∈ PROPERTY_KEYWORDS, cnt K = min CHARACTERS.length (g K).length) →
      (∀ K ∈ PROPERTY_KEYWORDS, ∀ n, n < CHARACTERS.length →
        T (CHARACTERS.getD n []) K = ((g K)[n]?).map (mkEntry K n)) →
      (∀ x y, T x y ≠ none →
        y ∈ PROPERTY_KEYWORDS ∧ ∃ m, m < CHARACTERS.length ∧ x = CHARACTERS.getD m []) →
      (∀ K ∈ PROPERTY_KEYWORDS, ∀ n, n < CHARACTERS.length →
        (rest.foldl tableStep (T, cnt)).1 (CHARACTERS.getD n []) K
          = ((g K ++ matchedBy rest K)[n]?).map (mkEntry K n)) ∧
      (∀ x y, (rest.foldl tableStep (T, cnt)).1 x y ≠ none →
        y ∈ PROPERTY_KEYWORDS ∧ ∃ m, m < CHARACTERS.length ∧ x = CHARACTERS.getD m []) := by
  induction rest with
  | nil =>
    intro T cnt g h1 h2 h3
    constructor
    · intro K hK n hn
      simpa [matchedBy] using h2 K hK n hn
    · exact h3
  | cons p rest ih =>
    intro T cnt g h1 h2 h3
    cases hk : keyFor p with
    | none =>
      have hstep : tableStep (T, cnt) p = (T, cnt) := tableStep_none _ p hk
      have hm : ∀ K, K ∈ PROPERTY_KEYWORDS → matchedBy (p :: rest) K = matchedBy rest K := by
        intro K _
        rw [matchedBy_cons, if_neg (by rw [hk]; simp)]
        rfl
      rw [List.foldl_cons, hstep]
      obtain ⟨ha, hb⟩ := ih T cnt g h1 h2 h3
      exact ⟨fun K hK n hn => by rw [hm K hK]; exact ha K hK n hn, hb⟩
    | some K0 =>
      have hK0 : K0 ∈ PROPERTY_KEYWORDS := keyFor_mem p K0 hk
      have hcnt0 : cnt K0 = min CHARACTERS.length (g K0).length := h1 K0 hK0
      set m := (g K0).length with hm
      -- the updated association of matched lists
      set g' : List Char → List PropRecord :=
        fun K => if K = K0 then g K0 ++ [p] else g K with hg'
      have hg'K0 : g' K0 = g K0 ++ [p] := if_pos rfl
      have hg'ne : ∀ K, K ≠ K0 → g' K = g K := fun K hKK => if_neg hKK
      have hmatch : ∀ K, g' K ++ matchedBy rest K = g K ++ matchedBy (p :: rest) K := by
        intro K
        rw [matchedBy_cons]
        by_cases hKK : K = K0
        · rw [hKK, hg'K0, if_pos hk, List.append_assoc]
        · rw [hg'ne K hKK,
            if_neg (by rw [hk]; intro hcon; exact hKK (Option.some.inj hcon).symm)]
          rfl
      by_cases hlt : m < CHARACTERS.length
      · have hcm : cnt K0 = m := by omega
        have hstep : tableStep (T, cnt) p =
            (fun a b =>
              if a = CHARACTERS.getD m [] ∧ b = K0 then
                some ⟨p, displayName K0 m⟩
              else T a b,
             updFn cnt K0 (m + 1)) := by
          rw [tableStep_some (T, cnt) p K0 hk]
          simp only [hcm]
          rw [if_pos hlt]
        rw [List.foldl_cons, hstep]
        have h1' : ∀ K ∈ PROPERTY_KEYWORDS,
            updFn cnt K0 (m + 1) K = min CHARACTERS.length (g' K).length := by
          intro K hK
          by_cases hKK : K = K0
          · rw [hKK, updFn, if_pos rfl, hg'K0, List.length_append]
            simp only [List.length_cons, List.length_nil]
            omega
          · rw [updFn, if_neg hKK, hg'ne K hKK]
            exact h1 K hK
        have h2' : ∀ K ∈ PROPERTY_KEYWORDS, ∀ n, n < CHARACTERS.length →
            (if CHARACTERS.getD n [] = CHARACTERS.getD m [] ∧ K = K0 then
              some ⟨p, displayName K0 m⟩
            else T (CHARACTERS.getD n []) K) = ((g' K)[n]?).map (mkEntry K n) := by
          intro K hK n hn
          by_cases hKK : K = K0
          · subst hKK
            rw [hg'K0]
            by_cases hnm : n = m
            · subst hnm
              rw [if_pos ⟨rfl, rfl⟩, append_single_elem, if_neg (by omega),
                if_pos rfl]
              rfl
            · have hne : CHARACTERS.getD n [] ≠ CHARACTERS.getD m [] := by
                intro hcc
                exact hnm (characters_getD_inj n hn m hlt hcc)
              rw [if_neg (by intro hcc; exact hne hcc.1), append_single_elem]
              by_cases hlt2 : n < m
              · rw [if_pos hlt2]
                exact h2 K hK0 n hn
              · rw [if_neg hlt2, if_neg hnm]
                have hnone : (g K)[n]? = none := by
                  rw [List.getElem?_eq_none_iff]
                  omega
                rw [h2 K hK0 n hn, hnone]
          · rw [if_neg (by intro hcc; exact hKK hcc.2), hg'ne K hKK]
            exact h2 K hK n hn
        have h3' : ∀ x y,
            (if x = CHARACTERS.getD m [] ∧ y = K0 then
              some ⟨p, displayName K0 m⟩
            else T x y) ≠ none →
            y ∈ PROPERTY_KEYWORDS ∧ ∃ q, q < CHARACTERS.length ∧
              x = CHARACTERS.getD q [] := by
          intro x y hxy
          by_cases hc : x = CHARACTERS.getD m [] ∧ y = K0
          · exact ⟨hc.2 ▸ hK0, m, hlt, hc.1⟩
          · rw [if_neg hc] at hxy
            exact h3 x y hxy
        obtain ⟨ha, hb⟩ := ih _ _ g' h1' h2' h3'
        refine ⟨fun K hK n hn => ?_, hb⟩
        rw [← hmatch K]
        exact ha K hK n hn
      · -- the keyword's counter already reached the roster length
        have hcm : cnt K0 = CHARACTERS.length := by omega
        have hstep : tableStep (T, cnt) p = (T, cnt) := by
          rw [tableStep_some (T, cnt) p K0 hk]
          rw [if_neg (show ¬ (T, cnt).2 K0 < CHARACTERS.length by dsimp only; omega)]
        rw [List.foldl_cons, hstep]
        have h1' : ∀ K ∈ PROPERTY_KEYWORDS,
            cnt K = min CHARACTERS.length (g' K).length := by
          intro K hK
          by_cases hKK : K = K0
          · rw [hKK, hg'K0, List.length_append]
            simp only [List.length_cons, List.length_nil]
            omega
          · rw [hg'ne K hKK]
            exact h1 K hK
        have h2' : ∀ K ∈ PROPERTY_KEYWORDS, ∀ n, n < CHARACTERS.length →
            T (CHARACTERS.getD n []) K = ((g' K)[n]?).map (mkEntry K n) := by
          intro K hK n hn
          by_cases hKK : K = K0
          · subst hKK
            rw [hg'K0, append_single_elem, if_pos (by omega)]
            exact h2 K hK0 n hn
          · rw [hg'ne K hKK]
            exact h2 K hK n hn
        obtain ⟨ha, hb⟩ := ih T cnt g' h1' h2' h3
        refine ⟨fun K hK n hn => ?_, hb⟩
        rw [← hmatch K]
        exact ha K hK n hn

theorem getElem_opt_isSome (l : List PropRecord) (n : Nat) :
    (l)[n]?.isSome = decide (n < l.length) := by
  by_cases h : n < l.length
  · simp [List.getElem?_eq_getElem h, h]
  · rw [List.getElem?_eq_none_iff.mpr (by omega)]
    simp [h]

/-! ### Claim C3: the classifier's occurrence mapping -/

/-- C3: in the table built by the classifier, the cell of roster slot
`n` and keyword `K` holds exactly the `n`-th record (in traversal
order) whose first matching keyword is `K` — the first-match test
being: the first configured keyword of which the record's first
underscore-separated name segment is a substring.  Occurrences at or
beyond the roster length yield no cell (the `n`-th cell is always the
`n`-th occurrence), and every occupied cell lies on a roster slot and
a configured keyword, so records matching no keyword appear
nowhere. -/
theorem c3_occurrence_mapping (props : List PropRecord) (K : List Char)
    (hK : K ∈ PROPERTY_KEYWORDS) (n : Nat) (hn : n < CHARACTERS.length) :
    build_character_property_table props (CHARACTERS.getD n []) K
      = ((matchedBy props K)[n]?).map (mkEntry K n) ∧
    ∀ x y, build_character_property_table props x y ≠ none →
      y ∈ PROPERTY_KEYWORDS ∧ ∃ m, m < CHARACTERS.length ∧ x = CHARACTERS.getD m [] := by
  have h := tableFold_inv props (fun _ _ => none) (fun _ => 0) (fun _ => [])
    (by intro K hK; simp)
    (by intro K hK n hn; simp)
    (by intro x y hxy; simp at hxy)
  rw [build_character_property_table]
  refine ⟨?_, h.2⟩
  have := h.1 K hK n hn
  simpa using this

/-- The record list used in the classifier witnesses. -/
def propsDemo : List PropRecord :=
  [⟨"Level".toList, 1, 0⟩, ⟨"CurrentXP".toList, 2, 10⟩,
   ⟨"BlueBallsXP".toList, 3, 20⟩, ⟨"UnspentPP".toList, 4, 30⟩,
   ⟨"CurrentDevotion".toList, 5, 40⟩, ⟨"DevotionLevel".toList, 6, 50⟩]

/-- C3 witness: the theorem applied at a concrete input. -/
theorem c3_witness :
    "Level".toList ∈ PROPERTY_KEYWORDS ∧ 0 < CHARACTERS.length ∧
      (build_character_property_table propsDemo (CHARACTERS.getD 0 []) "Level".toList
        = ((matchedBy propsDemo "Level".toList)[0]?).map (mkEntry "Level".toList 0) ∧
      ∀ x y, build_character_property_table propsDemo x y ≠ none →
        y ∈ PROPERTY_KEYWORDS ∧ ∃ m, m < CHARACTERS.length ∧
          x = CHARACTERS.getD m []) :=
  ⟨by decide, by decide,
    c3_occurrence_mapping propsDemo ("Level".toList) (by decide) 0 (by decide)⟩

/-! ### Claim C5: the unlocked policy -/

/-- Invariant of the `get_unlocked_characters` fold: the per-slot
count equals the number of keywords whose matched list already reaches
past that slot. -/
theorem unlockedFold_inv (rest : List PropRecord) :
    ∀ (counts cnt : List Char → Nat) (g : List Char → List PropRecord),
      (∀ K ∈ PROPERTY_KEYWORDS, cnt K = min CHARACTERS.length (g K).length) →
      (∀ n, n < CHARACTERS.length →
        counts (CHARACTERS.getD n []) =
          (PROPERTY_KEYWORDS.filter (fun K => decide (n < (g K).length))).length) →
      ∀ n, n < CHARACTERS.length →
        (rest.foldl unlockedStep (counts, cnt)).1 (CHARACTERS.getD n []) =
          (PROPERTY_KEYWORDS.filter
            (fun K => decide (n < (g K ++ matchedBy rest K).length))).length := by
  induction rest with
  | nil =>
    intro counts cnt g h1 h2 n hn
    have := h2 n hn
    simpa [matchedBy] using this
  | cons p rest ih =>
    intro counts cnt g h1 h2 n hn
    cases hk : keyFor p with
    | none =>
      have hstep : unlockedStep (counts, cnt) p = (counts, cnt) :=
        unlockedStep_none _ p hk
      rw [List.foldl_cons, hstep]
      have hmk : ∀ K, matchedBy (p :: rest) K = matchedBy rest K := by
        intro K
        rw [matchedBy_cons, if_neg (by rw [hk]; simp)]
        rfl
      rw [show (fun K => decide (n < (g K ++ matchedBy (p :: rest) K).length))
          = fun K => decide (n < (g K ++ matchedBy rest K).length) from
          funext fun K => by rw [hmk K]]
      exact ih counts cnt g h1 h2 n hn
    | some K0 =>
      have hK0 : K0 ∈ PROPERTY_KEYWORDS := keyFor_mem p K0 hk
      have hcnt0 : cnt K0 = min CHARACTERS.length (g K0).length := h1 K0 hK0
      set m := (g K0).length with hm
      set g' : List Char → List PropRecord :=
        fun K => if K = K0 then g K0 ++ [p] else g K with hg'
      have hg'K0 : g' K0 = g K0 ++ [p] := if_pos rfl
      have hg'ne : ∀ K, K ≠ K0 → g' K = g K := fun K hKK => if_neg hKK
      have hmatch : ∀ K, g' K ++ matchedBy rest K = g K ++ matchedBy (p :: rest) K := by
        intro K
        rw [matchedBy_cons]
        by_cases hKK : K = K0
        · rw [hKK, hg'K0, if_pos hk, List.append_assoc]
        · rw [hg'ne K hKK,
            if_neg (by rw [hk]; intro hcon; exact hKK (Option.some.inj hcon).symm)]
          rfl
      have hfin : ∀ counts' cnt',
          (∀ K ∈ PROPERTY_KEYWORDS, cnt' K = min CHARACTERS.length (g' K).length) →
          (∀ q, q < CHARACTERS.length →
            counts' (CHARACTERS.getD q []) =
              (PROPERTY_KEYWORDS.filter (fun K => decide (q < (g' K).length))).length) →
          (rest.foldl unlockedStep (counts', cnt')).1 (CHARACTERS.getD n []) =
            (PROPERTY_KEYWORDS.filter
              (fun K => decide (n < (g K ++ matchedBy (p :: rest) K).length))).length := by
        intro counts' cnt' hi1 hi2
        rw [show (fun K => decide (n < (g K ++ matchedBy (p :: rest) K).length))
            = fun K => decide (n < (g' K ++ matchedBy rest K).length) from
            funext fun K => by rw [hmatch K]]
        exact ih counts' cnt' g' hi1 hi2 n hn
      by_cases hlt : m < CHARACTERS.length
      · have hcm : cnt K0 = m := by omega
        have hstep : unlockedStep (counts, cnt) p =
            (updFn counts (CHARACTERS.getD m [])
              (counts (CHARACTERS.getD m []) + 1),
             updFn cnt K0 (m + 1)) := by
          rw [unlockedStep_some (counts, cnt) p K0 hk]
          simp only [hcm]
          rw [if_pos hlt]
        rw [List.foldl_cons, hstep]
        apply hfin
        · intro K hK
          by_cases hKK : K = K0
          · rw [hKK, updFn, if_pos rfl, hg'K0, List.length_append]
            simp only [List.length_cons, List.length_nil]
            omega
          · rw [updFn, if_neg hKK, hg'ne K hKK]
            exact h1 K hK
        · intro q hq
          by_cases hqm : q = m
          · rw [hqm, updFn, if_pos rfl, h2 m hlt]
            refine (filter_flip_length PROPERTY_KEYWORDS keywords_nodup K0 hK0
              (fun K => decide (m < (g K).length))
              (fun K => decide (m < (g' K).length)) ?_ ?_ ?_).symm
            · intro K _ hKK
              dsimp only
              rw [hg'ne K hKK]
            · dsimp only
              rw [← hm]
              simp
            · dsimp only
              rw [hg'K0, List.length_append, ← hm]
              simp
          · have hcc : CHARACTERS.getD q [] ≠ CHARACTERS.getD m [] := by
              intro hcc
              exact hqm (characters_getD_inj q hq m hlt hcc)
            rw [updFn, if_neg hcc, h2 q hq]
            apply congrArg
            apply List.filter_congr
            intro K _
            dsimp only
            by_cases hKK : K = K0
            · rw [hKK, hg'K0, List.length_append]
              simp only [List.length_cons, List.length_nil]
              rw [decide_eq_decide]
              omega
            · rw [hg'ne K hKK]
      · have hcm : cnt K0 = CHARACTERS.length := by omega
        have hstep : unlockedStep (counts, cnt) p = (counts, cnt) := by
          rw [unlockedStep_some (counts, cnt) p K0 hk]
          rw [if_neg (show ¬ (counts, cnt).2 K0 < CHARACTERS.length by
            dsimp only; omega)]
        rw [List.foldl_cons, hstep]
        apply hfin
        · intro K hK
          by_cases hKK : K = K0
          · rw [hKK, hg'K0, List.length_append]
            simp only [List.length_cons, List.length_nil]
            omega
          · rw [hg'ne K hKK]
            exact h1 K hK
        · intro q hq
          rw [h2 q hq]
          apply congrArg
          apply List.filter_congr
          intro K _
          dsimp only
          by_cases hKK : K = K0
          · rw [hKK, hg'K0, List.length_append]
            simp only [List.length_cons, List.length_nil]
            rw [decide_eq_decide]
            omega
          · rw [hg'ne K hKK]

/-- `get_unlocked_characters` with the `let`-bound fold expanded. -/
theorem get_unlocked_eq (props : List PropRecord) (char : List Char) :
    get_unlocked_characters props char =
      decide (PROPERTY_KEYWORDS.length ≤
        (props.foldl unlockedStep (fun _ => 0, fun _ => 0)).1 char) := rfl

/-- C5: a roster slot is reported unlocked iff the number of distinct
keywords resolved to that slot (i.e. occupying its cells in the
classifier's table) equals the total number of configured keywords;
a slot missing even one keyword is reported locked. -/
theorem c5_unlocked_iff (props : List PropRecord) (n : Nat)
    (hn : n < CHARACTERS.length) :
    get_unlocked_characters props (CHARACTERS.getD n []) = true ↔
      (PROPERTY_KEYWORDS.filter (fun K =>
        (build_character_property_table props (CHARACTERS.getD n []) K).isSome)).length
        = PROPERTY_KEYWORDS.length := by
  have hc := unlockedFold_inv props (fun _ => 0) (fun _ => 0) (fun _ => [])
    (by intro K hK; simp) (by intro q hq; simp) n hn
  have ht := (tableFold_inv props (fun _ _ => none) (fun _ => 0) (fun _ => [])
    (by intro K hK; simp)
    (by intro K hK q hq; simp)
    (by intro x y hxy; simp at hxy)).1
  have hpt : ∀ K ∈ PROPERTY_KEYWORDS,
      (build_character_property_table props (CHARACTERS.getD n []) K).isSome
        = decide (n < (matchedBy props K).length) := by
    intro K hK
    rw [build_character_property_table]
    have := ht K hK n hn
    simp only [List.nil_append] at this
    rw [this, Option.isSome_map']
    exact getElem_opt_isSome _ n
  rw [get_unlocked_eq, hc]
  simp only [List.nil_append]
  rw [List.filter_congr hpt]
  have hle := List.length_filter_le
    (fun K => decide (n < (matchedBy props K).length)) PROPERTY_KEYWORDS
  have hkw : PROPERTY_KEYWORDS.length = 6 := rfl
  rw [hkw] at hle ⊢
  rw [decide_eq_true_iff]
  omega

/-- C5 witness: the theorem applied at a concrete input (`propsDemo`
resolves all six keywords to the first roster slot, which is
unlocked). -/
theorem c5_witness :
    0 < CHARACTERS.length ∧
      (get_unlocked_characters propsDemo (CHARACTERS.getD 0 []) = true ↔
        (PROPERTY_KEYWORDS.filter (fun K =>
          (build_character_property_table propsDemo
            (CHARACTERS.getD 0 []) K).isSome)).length = PROPERTY_KEYWORDS.length) :=
  ⟨by decide, c5_unlocked_iff propsDemo 0 (by decide)⟩

/-! ### Well-formed buffers: layout descriptors for C9 and C4 -/

/-- Descriptor of one well-formed record in a buffer: marker position
`s`, the zero byte terminating its name at position `z`, and the value
`L` of its 4-byte length field. -/
structure RecDesc where
  s : Nat
  z : Nat
  L : Nat
deriving DecidableEq, Repr

/-- First byte position after the record described by `d`
(its 4-byte value ends here). -/
def recEnd (d : RecDesc) : Nat := d.s + 17 + d.L + 4

/-- Validity of one record descriptor, relative to a lower bound `lo`
(the end of the previous record): the marker is at least at
position 7, the zero byte lies between `lo` and the backward-scan
start `s - 6` and is the nearest zero below it, the name bytes are
ASCII (so decoding succeeds), the length field is intact, and the
4-byte value lies within the buffer. -/
def descOk (c : List Nat) (lo : Nat) (d : RecDesc) : Bool :=
  decide (7 ≤ d.s) && decide (lo ≤ d.z) && decide (0 < d.z) &&
  decide (d.z + 6 ≤ d.s) && decide (c.getD d.z 0 = 0) &&
  ((List.range' (d.z + 1) (d.s - 6 - d.z)).all fun j => decide (c.getD j 0 ≠ 0)) &&
  ((sliceN c (d.z + 1) (d.s - (d.z + 1))).all fun b => decide (b < 0x80)) &&
  decide (unpack_int (sliceN c (d.s + 12) 4) = some d.L) &&
  decide (d.s + 17 + d.L + 4 ≤ c.length)

/-- Sequential layout: each record is valid and starts after the end
of the previous one. -/
def layoutOk (c : List Nat) : Nat → List RecDesc → Bool
  | _, [] => true
  | lo, d :: ds => descOk c lo d && layoutOk c (recEnd d) ds

/-- The marker occurrences of `c` are exactly the positions in `ss`. -/
def markersExact (c : List Nat) (ss : List Nat) : Bool :=
  (List.range c.length).all fun p =>
    decide (matchesAt c markerBytes p = decide (p ∈ ss))

/-- The record that the scan produces for the descriptor `d`. -/
def recOf (c : List Nat) (d : RecDesc) : PropRecord :=
  ⟨((sliceN c (d.z + 1) (d.s - (d.z + 1))).map Char.ofNat).filter pyIsPrintable,
   leVal (sliceN c (d.s + 17 + d.L) 4),
   d.s + 17 + d.L⟩

theorem descOk_iff (c : List Nat) (lo : Nat) (d : RecDesc) :
    descOk c lo d = true ↔
      (7 ≤ d.s ∧ lo ≤ d.z ∧ 0 < d.z ∧ d.z + 6 ≤ d.s ∧ c.getD d.z 0 = 0 ∧
       (∀ j, d.z < j → j ≤ d.s - 6 → c.getD j 0 ≠ 0) ∧
       (∀ b ∈ sliceN c (d.z + 1) (d.s - (d.z + 1)), b < 0x80) ∧
       unpack_int (sliceN c (d.s + 12) 4) = some d.L ∧
       d.s + 17 + d.L + 4 ≤ c.length) := by
  rw [descOk]
  simp only [Bool.and_eq_true, decide_eq_true_eq, List.all_eq_true]
  constructor
  · rintro ⟨⟨⟨⟨⟨⟨⟨⟨h1, h2⟩, h3⟩, h4⟩, h5⟩, h6⟩, h7⟩, h8⟩, h9⟩
    refine ⟨h1, h2, h3, h4, h5, ?_, ?_, h8, h9⟩
    · intro j hj1 hj2
      have hj : j ∈ List.range' (d.z + 1) (d.s - 6 - d.z) := by
        rw [List.mem_range'_1]
        omega
      exact h6 j hj
    · intro b hb
      exact h7 b hb
  · rintro ⟨h1, h2, h3, h4, h5, h6, h7, h8, h9⟩
    refine ⟨⟨⟨⟨⟨⟨⟨⟨h1, h2⟩, h3⟩, h4⟩, h5⟩, ?_⟩, ?_⟩, h8⟩, h9⟩
    · intro j hj
      rw [List.mem_range'_1] at hj
      exact h6 j (by omega) (by omega)
    · intro b hb
      exact h7 b hb

theorem layoutOk_cons (c : List Nat) (lo : Nat) (d : RecDesc) (ds : List RecDesc) :
    layoutOk c lo (d :: ds) = true ↔
      descOk c lo d = true ∧ layoutOk c (recEnd d) ds = true := by
  rw [layoutOk, Bool.and_eq_true]

theorem layout_mem_z (c : List Nat) :
    ∀ (ds : List RecDesc) (lo : Nat), layoutOk c lo ds = true →
      ∀ d ∈ ds, lo ≤ d.z := by
  intro ds
  induction ds with
  | nil => intro lo _ d hd; simp at hd
  | cons d0 ds ih =>
    intro lo hly d hd
    obtain ⟨hd0, hds⟩ := (layoutOk_cons c lo d0 ds).mp hly
    obtain ⟨_, hz, _, hzs, _⟩ := (descOk_iff c lo d0).mp hd0
    rcases List.mem_cons.mp hd with rfl | hd'
    · exact hz
    · have := ih (recEnd d0) hds d hd'
      rw [recEnd] at this
      omega

theorem matchesAt_false_of_ge (c pat : List Nat) (p : Nat) (hp : pat ≠ [])
    (h : c.length ≤ p) : matchesAt c pat p = false := by
  by_contra hcon
  have hb := matchesAt_bound c pat p hp (by simpa using hcon)
  have := List.length_pos.mpr hp
  omega

theorem markersExact_iff (c : List Nat) (ss : List Nat) :
    markersExact c ss = true ↔
      ∀ p, p < c.length → (matchesAt c markerBytes p = true ↔ p ∈ ss) := by
  rw [markersExact]
  simp only [List.all_eq_true, List.mem_range, decide_eq_true_eq]
  constructor
  · intro h p hp
    rw [h p hp]
    exact decide_eq_true_iff
  · intro h p hp
    rw [Bool.eq_iff_iff, h p hp]
    exact decide_eq_true_iff.symm

theorem utf8Decode_ascii (bs : List Nat) (h : ∀ b ∈ bs, b < 0x80) :
    utf8Decode bs = some (bs.map Char.ofNat) := by
  induction bs with
  | nil => rfl
  | cons b t ih =>
    rw [utf8Decode.eq_def]
    dsimp only
    rw [if_pos (h b (List.mem_cons_self b t)),
      ih (fun x hx => h x (List.mem_cons_of_mem b hx))]
    rfl

theorem unpack_int_full (c : List Nat) (o : Nat) (h : o + 4 ≤ c.length) :
    unpack_int (sliceN c o 4) = some (leVal (sliceN c o 4)) := by
  rw [unpack_int, if_pos]
  rw [sliceN_length]
  omega

/-- Processing the marker of a well-formed record descriptor produces
exactly the described record. -/
theorem processMarker_desc (c : List Nat) (lo : Nat) (d : RecDesc)
    (hd : descOk c lo d = true) :
    processMarker c d.s = some (some (recOf c d)) := by
  obtain ⟨h7, hz0, hzpos, hzs, hzero, hnz, hascii, hunp, hbound⟩ :=
    (descOk_iff c lo d).mp hd
  have hne : nameEndAt c d.s = (d.z : Int) + 1 :=
    nameEndAt_found c d.s d.z h7 hzpos (by omega) hzero hnz
  have hnat : (nameEndAt c d.s).toNat = d.z + 1 := by
    rw [hne]
    omega
  have hpos : 0 < nameEndAt c d.s := by
    rw [hne]
    omega
  rw [processMarker_eq, if_pos hpos, hnat,
    utf8Decode_ascii _ hascii]
  dsimp only
  rw [hunp]
  dsimp only
  have harith : d.s + 12 + 4 + d.L + 1 = d.s + 17 + d.L := by omega
  rw [harith, unpack_int_full c (d.s + 17 + d.L) (by omega)]
  dsimp only
  rw [recOf]
  have hflip : reverse_string ((reverse_string ((sliceN c (d.z + 1)
      (d.s - (d.z + 1))).map Char.ofNat)).filter pyIsPrintable)
      = ((sliceN c (d.z + 1) (d.s - (d.z + 1))).map Char.ofNat).filter
          pyIsPrintable := by
    simp only [reverse_string]
    rw [List.filter_reverse, List.reverse_reverse]
  rw [hflip]

/-- The scanning loop on a well-formed suffix of the buffer: from any
cursor at or before all remaining markers, it discovers exactly the
described records in order. -/
theorem scanSteps_layout (c : List Nat) :
    ∀ (ds : List RecDesc) (fuel i lo : Nat),
      c.length ≤ fuel + i →
      (∀ p, i ≤ p → (matchesAt c markerBytes p = true ↔ p ∈ ds.map RecDesc.s)) →
      layoutOk c lo ds = true →
      (∀ d ∈ ds, i ≤ d.s) →
      scanSteps fuel c i = some (ds.map (recOf c)) := by
  intro ds
  induction ds with
  | nil =>
    intro fuel i lo hfuel hex _ _
    by_cases hi : i < c.length
    · obtain ⟨f, rfl⟩ : ∃ f, fuel = f + 1 := ⟨fuel - 1, by omega⟩
      cases hff : findFrom c markerBytes i with
      | none => rw [scanSteps, if_pos hi, hff]; rfl
      | some s =>
        obtain ⟨his, hm, _⟩ := findFrom_eq_some _ _ _ _ hff
        have : s ∈ ([] : List RecDesc).map RecDesc.s := (hex s his).mp hm
        simp at this
    · rw [scanSteps_stop _ _ _ (by omega)]
      rfl
  | cons d ds ih =>
    intro fuel i lo hfuel hex hly hge
    obtain ⟨hd, hds⟩ := (layoutOk_cons c lo d ds).mp hly
    obtain ⟨h7, hz0, hzpos, hzs, hzero, hnz, hascii, hunp, hbound⟩ :=
      (descOk_iff c lo d).mp hd
    have hdis : i ≤ d.s := hge d (List.mem_cons_self d ds)
    have htail_s : ∀ d' ∈ ds, recEnd d + 6 ≤ d'.s := by
      intro d' hd'
      have hz' := layout_mem_z c ds (recEnd d) hds d' hd'
      have hd'ok : ∃ lo', descOk c lo' d' = true ∨ True := ⟨0, Or.inr trivial⟩
      -- z' + 6 ≤ s' comes from the descriptor's own validity
      have : d'.z + 6 ≤ d'.s := by
        clear hd'ok
        revert d' hd'
        have aux : ∀ (es : List RecDesc) (lo' : Nat), layoutOk c lo' es = true →
            ∀ e ∈ es, e.z + 6 ≤ e.s := by
          intro es
          induction es with
          | nil => intro lo' _ e he; simp at he
          | cons e0 es ihe =>
            intro lo' hly' e he
            obtain ⟨he0, hes⟩ := (layoutOk_cons c lo' e0 es).mp hly'
            rcases List.mem_cons.mp he with heq | he'
            · rw [heq]
              exact ((descOk_iff c lo' e0).mp he0).2.2.2.1
            · exact ihe (recEnd e0) hes e he'
        intro d' hd' _
        exact aux ds (recEnd d) hds d' hd'
      omega
    have hmark : matchesAt c markerBytes d.s = true :=
      (hex d.s hdis).mpr (by simp)
    have hfind : findFrom c markerBytes i = some d.s := by
      apply findFrom_min c markerBytes i d.s markerBytes_ne_nil hmark hdis
      intro q hq1 hq2
      by_contra hcon
      have hq : q ∈ (d :: ds).map RecDesc.s :=
        (hex q hq1).mp (by simpa using hcon)
      simp only [List.map_cons, List.mem_cons, List.mem_map] at hq
      rcases hq with rfl | ⟨d', hd', rfl⟩
      · omega
      · have := htail_s d' hd'
        rw [recEnd] at this
        omega
    have hs11 : d.s + 11 ≤ c.length := by omega
    have hi : i < c.length := by omega
    obtain ⟨f, rfl⟩ : ∃ f, fuel = f + 1 := ⟨fuel - 1, by omega⟩
    rw [scanSteps_found f c i d.s hi hfind,
      processMarker_desc c lo d hd]
    have hrest : scanSteps f c (d.s + 1) = some (ds.map (recOf c)) := by
      apply ih f (d.s + 1) (recEnd d) (by omega) ?_ hds ?_
      · intro p hp
        constructor
        · intro hm
          have hp' : p ∈ (d :: ds).map RecDesc.s := (hex p (by omega)).mp hm
          simp only [List.map_cons, List.mem_cons] at hp'
          rcases hp' with rfl | hp''
          · omega
          · exact hp''
        · intro hm
          exact (hex p (by omega)).mpr (by simp [hm])
      · intro d' hd'
        have := htail_s d' hd'
        rw [recEnd] at this
        omega
    rw [hrest]
    rfl

theorem layout_chain (c : List Nat) :
    ∀ (ds : List RecDesc) (lo : Nat), layoutOk c lo ds = true →
      List.Chain' (fun a b => a.data_start < b.data_start) (ds.map (recOf c)) := by
  intro ds
  induction ds with
  | nil => intro lo _; simp
  | cons d ds ih =>
    intro lo hly
    obtain ⟨hd, hds⟩ := (layoutOk_cons c lo d ds).mp hly
    cases ds with
    | nil => simp
    | cons d' ds' =>
      obtain ⟨hd', _⟩ := (layoutOk_cons c (recEnd d) d' ds').mp hds
      obtain ⟨_, hz0', _, hzs', _⟩ := (descOk_iff c (recEnd d) d').mp hd'
      rw [List.map_cons, List.map_cons, List.chain'_cons]
      constructor
      · show (recOf c d).data_start < (recOf c d').data_start
        rw [recOf, recOf]
        dsimp only
        rw [recEnd] at hz0'
        omega
      · have := ih (recEnd d) hds
        rwa [List.map_cons] at this

/-! ### Claim C9: well-formed buffers scan to exactly their records -/

/-- C9: a well-formed buffer whose marker occurrences are exactly the
`k` descriptor positions — each with a valid zero-terminated ASCII
name region, an intact length field, and an in-bounds 4-byte value,
laid out sequentially — scans without error to exactly `k` records,
one per descriptor in marker order, and their `data_start` offsets are
strictly increasing. -/
theorem c9_wellformed_scan (c : List Nat) (ds : List RecDesc)
    (hex : markersExact c (ds.map RecDesc.s) = true)
    (hly : layoutOk c 0 ds = true) :
    read_int_properties c = some (ds.map (recOf c)) ∧
    (ds.map (recOf c)).length = ds.length ∧
    List.Chain' (fun a b => a.data_start < b.data_start) (ds.map (recOf c)) := by
  have hex' : ∀ p, 0 ≤ p → (matchesAt c markerBytes p = true ↔ p ∈ ds.map RecDesc.s) := by
    intro p _
    by_cases hp : p < c.length
    · exact (markersExact_iff c _).mp hex p hp
    · constructor
      · intro hm
        rw [matchesAt_false_of_ge c markerBytes p markerBytes_ne_nil (by omega)] at hm
        exact absurd hm (by simp)
      · intro hmem
        obtain ⟨d, hd, rfl⟩ := List.mem_map.mp hmem
        have aux : ∀ (es : List RecDesc) (lo' : Nat), layoutOk c lo' es = true →
            ∀ e ∈ es, e.s + 17 + e.L + 4 ≤ c.length := by
          intro es
          induction es with
          | nil => intro lo' _ e he; simp at he
          | cons e0 es ihe =>
            intro lo' hly' e he
            obtain ⟨he0, hes⟩ := (layoutOk_cons c lo' e0 es).mp hly'
            rcases List.mem_cons.mp he with heq | he'
            · rw [heq]
              exact ((descOk_iff c lo' e0).mp he0).2.2.2.2.2.2.2.2
            · exact ihe (recEnd e0) hes e he'
        have := aux ds 0 hly d hd
        omega
  refine ⟨?_, List.length_map _ _, layout_chain c ds 0 hly⟩
  exact scanSteps_layout c ds c.length 0 0 (by omega) (fun p _ => hex' p (by omega))
    hly (fun d _ => by omega)

/-- The two-record well-formed buffer used as the C9 witness. -/
def bufTwo : List Nat :=
  [65, 0] ++ [65, 65, 65, 65, 65] ++ markerBytes ++ [0] ++ [0, 0, 0, 0] ++ [0]
    ++ [42, 0, 0, 0] ++ [0] ++ [66, 66, 66, 66, 66] ++ markerBytes ++ [0]
    ++ [0, 0, 0, 0] ++ [0] ++ [7, 0, 0, 0]

/-- The descriptors of `bufTwo`: markers at 7 and 34. -/
def dsTwo : List RecDesc := [⟨7, 1, 0⟩, ⟨34, 28, 0⟩]

/-- C9 witness: the theorem applied at a concrete two-record buffer. -/
theorem c9_witness :
    markersExact bufTwo (dsTwo.map RecDesc.s) = true ∧
      layoutOk bufTwo 0 dsTwo = true ∧
      (read_int_properties bufTwo = some (dsTwo.map (recOf bufTwo)) ∧
       (dsTwo.map (recOf bufTwo)).length = dsTwo.length ∧
       List.Chain' (fun a b => a.data_start < b.data_start)
         (dsTwo.map (recOf bufTwo))) :=
  ⟨by decide, by decide, c9_wellformed_scan bufTwo dsTwo (by decide) (by decide)⟩

/-! ### Frame reasoning for C4 -/

/-- The lower bound left for the records after a layout prefix. -/
def loAfter : Nat → List RecDesc → Nat
  | lo, [] => lo
  | _, d :: ds => loAfter (recEnd d) ds

theorem loAfter_ge (c : List Nat) :
    ∀ (xs : List RecDesc) (lo : Nat), layoutOk c lo xs = true →
      lo ≤ loAfter lo xs := by
  intro xs
  induction xs with
  | nil => intro lo _; exact le_rfl
  | cons x xs ih =>
    intro lo hly
    obtain ⟨hx, hxs⟩ := (layoutOk_cons c lo x xs).mp hly
    obtain ⟨_, hz, _, hzs, _⟩ := (descOk_iff c lo x).mp hx
    have h1 : lo ≤ recEnd x := by rw [recEnd]; omega
    have h2 := ih (recEnd x) hxs
    rw [loAfter]
    omega

theorem loAfter_mem (c : List Nat) :
    ∀ (xs : List RecDesc) (lo : Nat), layoutOk c lo xs = true →
      ∀ x ∈ xs, recEnd x ≤ loAfter lo xs := by
  intro xs
  induction xs with
  | nil => intro lo _ x hx; simp at hx
  | cons x0 xs ih =>
    intro lo hly x hx
    obtain ⟨hx0, hxs⟩ := (layoutOk_cons c lo x0 xs).mp hly
    rcases List.mem_cons.mp hx with heq | hx'
    · rw [heq, loAfter]
      exact loAfter_ge c xs (recEnd x0) hxs
    · rw [loAfter]
      exact ih (recEnd x0) hxs x hx'

theorem layout_append (c : List Nat) :
    ∀ (xs ys : List RecDesc) (lo : Nat),
      layoutOk c lo (xs ++ ys) = true ↔
        (layoutOk c lo xs = true ∧ layoutOk c (loAfter lo xs) ys = true) := by
  intro xs
  induction xs with
  | nil =>
    intro ys lo
    rw [List.nil_append, loAfter]
    simp [layoutOk]
  | cons x xs ih =>
    intro ys lo
    rw [List.cons_append, layoutOk_cons, ih ys (recEnd x), layoutOk_cons]
    simp only [loAfter]
    tauto

theorem getD_congr (c c' : List Nat) (j : Nat) (h : (c')[j]? = (c)[j]?) :
    c'.getD j 0 = c.getD j 0 := by
  rw [List.getD_eq_getElem?_getD, List.getD_eq_getElem?_getD, h]

theorem sliceN_congr (c c' : List Nat) (a n : Nat) (hlen : c'.length = c.length)
    (hag : ∀ j, a ≤ j → j < a + n → (c')[j]? = (c)[j]?) :
    sliceN c' a n = sliceN c a n := by
  apply List.ext_getElem
  · rw [sliceN_length, sliceN_length, hlen]
  · intro i h1 h2
    have hin : i < n := by
      rw [sliceN_length] at h1
      omega
    have e1 : (sliceN c' a n)[i]? = (sliceN c a n)[i]? := by
      rw [sliceN_elem c' a n i hin, sliceN_elem c a n i hin]
      exact hag (a + i) (by omega) (by omega)
    rw [List.getElem?_eq_getElem h1, List.getElem?_eq_getElem h2] at e1
    exact Option.some.inj e1

theorem matchesAt_congr (c c' pat : List Nat) (p : Nat)
    (hlen : c'.length = c.length)
    (hag : ∀ j, p ≤ j → j < p + pat.length → (c')[j]? = (c)[j]?) :
    matchesAt c' pat p = matchesAt c pat p := by
  rw [matchesAt, matchesAt, sliceN_congr c c' p pat.length hlen hag]

/-- Transfer of a record descriptor's validity to a buffer patched at
`[o, o + 4)`, provided the descriptor's byte regions avoid the patch:
every byte `descOk` consults lies below `s + 16`, and the value bytes
are not consulted. -/
theorem descOk_congr (c c' : List Nat) (o lo : Nat) (x : RecDesc)
    (hlen : c'.length = c.length)
    (helem : ∀ j, j < o ∨ o + 4 ≤ j → (c')[j]? = (c)[j]?)
    (hx : x.s + 16 ≤ o ∨ o + 4 ≤ x.z)
    (h : descOk c lo x = true) : descOk c' lo x = true := by
  obtain ⟨h7, hz0, hzpos, hzs, hzero, hnz, hascii, hunp, hbound⟩ :=
    (descOk_iff c lo x).mp h
  have hout : ∀ j, j < x.s + 16 → (x.z ≤ j) → (c')[j]? = (c)[j]? := by
    intro j hj1 hj2
    rcases hx with hx | hx
    · exact helem j (Or.inl (by omega))
    · exact helem j (Or.inr (by omega))
  rw [descOk_iff]
  refine ⟨h7, hz0, hzpos, hzs, ?_, ?_, ?_, ?_, by omega⟩
  · rw [getD_congr c c' x.z (hout x.z (by omega) le_rfl)]
    exact hzero
  · intro j hj1 hj2
    rw [getD_congr c c' j (hout j (by omega) (by omega))]
    exact hnz j hj1 hj2
  · have hsl : sliceN c' (x.z + 1) (x.s - (x.z + 1)) =
        sliceN c (x.z + 1) (x.s - (x.z + 1)) := by
      apply sliceN_congr c c' _ _ hlen
      intro j hj1 hj2
      exact hout j (by omega) (by omega)
    rw [hsl]
    exact hascii
  · have hsl : sliceN c' (x.s + 12) 4 = sliceN c (x.s + 12) 4 := by
      apply sliceN_congr c c' _ _ hlen
      intro j hj1 hj2
      exact hout j (by omega) (by omega)
    rw [hsl]
    exact hunp

/-- Transfer of a whole layout to the patched buffer. -/
theorem layout_patch (c c' : List Nat) (o : Nat)
    (hlen : c'.length = c.length)
    (helem : ∀ j, j < o ∨ o + 4 ≤ j → (c')[j]? = (c)[j]?) :
    ∀ (ds : List RecDesc) (lo : Nat), layoutOk c lo ds = true →
      (∀ x ∈ ds, x.s + 16 ≤ o ∨ o + 4 ≤ x.z) →
      layoutOk c' lo ds = true := by
  intro ds
  induction ds with
  | nil => intro lo _ _; rfl
  | cons x ds ih =>
    intro lo hly hreg
    obtain ⟨hx, hds⟩ := (layoutOk_cons c lo x ds).mp hly
    rw [layoutOk_cons]
    exact ⟨descOk_congr c c' o lo x hlen helem
        (hreg x (List.mem_cons_self x ds)) hx,
      ih (recEnd x) hds (fun y hy => hreg y (List.mem_cons_of_mem x hy))⟩

theorem layout_mem_zs (c : List Nat) :
    ∀ (ds : List RecDesc) (lo : Nat), layoutOk c lo ds = true →
      ∀ e ∈ ds, e.z + 6 ≤ e.s ∧ e.s + 17 + e.L + 4 ≤ c.length := by
  intro ds
  induction ds with
  | nil => intro lo _ e he; simp at he
  | cons e0 es ih =>
    intro lo hly e he
    obtain ⟨he0, hes⟩ := (layoutOk_cons c lo e0 es).mp hly
    rcases List.mem_cons.mp he with heq | he'
    · have hh := (descOk_iff c lo e0).mp he0
      rw [heq]
      exact ⟨hh.2.2.2.1, hh.2.2.2.2.2.2.2.2⟩
    · exact ih (recEnd e0) hes e he'

theorem markersExact_global (c : List Nat) (ds : List RecDesc)
    (hex : markersExact c (ds.map RecDesc.s) = true)
    (hly : layoutOk c 0 ds = true) :
    ∀ p, matchesAt c markerBytes p = true ↔ p ∈ ds.map RecDesc.s := by
  intro p
  by_cases hp : p < c.length
  · exact (markersExact_iff c _).mp hex p hp
  · constructor
    · intro hm
      rw [matchesAt_false_of_ge c markerBytes p markerBytes_ne_nil (by omega)] at hm
      exact absurd hm (by simp)
    · intro hmem
      obtain ⟨e, he, rfl⟩ := List.mem_map.mp hmem
      have := (layout_mem_zs c ds 0 hly e he).2
      omega

theorem leVal_bytes (v : Nat) :
    leVal [v % 256, v / 256 % 256, v / 65536 % 256, v / 16777216 % 256] =
      v % 2 ^ 32 := by
  have h : leVal [v % 256, v / 256 % 256, v / 65536 % 256, v / 16777216 % 256] =
      v % 256 + 256 * (v / 256 % 256) + 65536 * (v / 65536 % 256)
        + 16777216 * (v / 16777216 % 256) := rfl
  rw [h]
  omega

/-! ### Claim C4: the scan/patch round trip -/

/-- The buffer used to refute C4: one valid record whose value bytes
are zeros, laid out so that writing the value `0x7250746E`
(little-endian bytes `"ntPr"`) completes a second, overlapping
`"IntProperty"` occurrence whose length field then runs off the end of
the buffer. -/
def bufOverlap : List Nat :=
  [0, 0, 65, 65, 65, 65, 65] ++ markerBytes ++ [0] ++ [0, 0, 0, 0] ++ [73]
    ++ [0, 0, 0, 0] ++ [111, 112, 101, 114, 116, 121]

/-- `bufOverlap` after `overwrite_int bufOverlap 24 1917875310`. -/
def bufOverlapPatched : List Nat :=
  [0, 0, 65, 65, 65, 65, 65] ++ markerBytes ++ [0] ++ [0, 0, 0, 0] ++ [73]
    ++ [110, 116, 80, 114] ++ [111, 112, 101, 114, 116, 121]

/-- C4 counterexample: the scan of `bufOverlap` locates a record at
offset 24; patching that very offset with the in-range value
1917875310 makes the re-scan of the result raise (no records at all),
so no record with the new value is found at offset 24 and the other
records are not preserved. -/
theorem c4_counterexample :
    read_int_properties bufOverlap =
        some [⟨['A', 'A', 'A', 'A', 'A'], 0, 24⟩] ∧
      (1917875310 : Nat) < 2 ^ 32 ∧
      overwrite_int bufOverlap 24 1917875310 = some bufOverlapPatched ∧
      read_int_properties bufOverlapPatched = none := by
  refine ⟨by decide, by decide, by decide, by decide⟩

/-- C4 amended: the round trip holds for sequentially well-formed
buffers whenever the patched 4 value bytes complete no new marker
occurrence: re-scanning the patched buffer yields exactly the same
records — same names, values and offsets — except that the patched
record now carries value `v` at the same offset.  Without the
no-new-marker proviso the claim fails (see the counterexample). -/
theorem c4_roundtrip_wellformed (c c' : List Nat) (pre post : List RecDesc)
    (d : RecDesc) (v : Nat) (hv : v < 2 ^ 32)
    (hex : markersExact c ((pre ++ d :: post).map RecDesc.s) = true)
    (hly : layoutOk c 0 (pre ++ d :: post) = true)
    (hpatch : overwrite_int c ((d.s + 17 + d.L : Nat) : Int) ((v : Nat) : Int)
      = some c')
    (hnonew : ∀ p, p < c'.length → matchesAt c' markerBytes p = true →
      matchesAt c markerBytes p = true) :
    read_int_properties c' =
      some (pre.map (recOf c) ++
        (⟨(recOf c d).name, v, d.s + 17 + d.L⟩ : PropRecord) ::
          post.map (recOf c)) := by
  obtain ⟨hpre, hrest⟩ := (layout_append c pre (d :: post) 0).mp hly
  obtain ⟨hd, hpost⟩ := (layoutOk_cons c (loAfter 0 pre) d post).mp hrest
  obtain ⟨h7, hz0, hzpos, hzs, hzero, hnz, hascii, hunp, hbound⟩ :=
    (descOk_iff c (loAfter 0 pre) d).mp hd
  have hobound : (d.s + 17 + d.L) + 4 ≤ c.length := hbound
  obtain ⟨out, hout, hlen, hslice, helem⟩ :=
    overwrite_int_spec c ((d.s + 17 + d.L : Nat) : Int) ((v : Nat) : Int)
      (by omega) (by omega)
      ⟨by omega, by exact_mod_cast hv⟩
  obtain rfl : c' = out := Option.some.inj (hpatch.symm.trans hout)
  rw [Int.toNat_natCast] at hslice helem
  rw [Int.toNat_natCast] at hslice
  -- region facts
  have hpre_reg : ∀ x ∈ pre, x.s + 16 ≤ d.s + 17 + d.L := by
    intro x hx
    have h1 := loAfter_mem c pre 0 hpre x hx
    rw [recEnd] at h1
    omega
  have hpost_reg : ∀ x ∈ post, (d.s + 17 + d.L) + 4 ≤ x.z := by
    intro x hx
    have := layout_mem_z c post (recEnd d) hpost x hx
    rw [recEnd] at this
    omega
  have hall_reg : ∀ x ∈ pre ++ d :: post,
      x.s + 16 ≤ d.s + 17 + d.L ∨ (d.s + 17 + d.L) + 4 ≤ x.z := by
    intro x hx
    rcases List.mem_append.mp hx with hx | hx
    · exact Or.inl (hpre_reg x hx)
    · rcases List.mem_cons.mp hx with heq | hx
      · left
        rw [heq]
        omega
      · exact Or.inr (hpost_reg x hx)
  have hzs_all := layout_mem_zs c (pre ++ d :: post) 0 hly
  -- the layout transfers to the patched buffer
  have hly' : layoutOk c' 0 (pre ++ d :: post) = true :=
    layout_patch c c' (d.s + 17 + d.L) hlen helem _ 0 hly hall_reg
  -- the marker occurrences of the patched buffer are unchanged
  have hex' : ∀ p, matchesAt c' markerBytes p = true ↔
      p ∈ (pre ++ d :: post).map RecDesc.s := by
    intro p
    constructor
    · intro hm
      have hp : p < c'.length := by
        have := matchesAt_bound c' markerBytes p markerBytes_ne_nil hm
        rw [markerBytes_length] at this
        omega
      exact (markersExact_global c _ hex hly p).mp (hnonew p hp hm)
    · intro hmem
      obtain ⟨x, hx, rfl⟩ := List.mem_map.mp hmem
      have hmx : matchesAt c markerBytes x.s = true :=
        (markersExact_global c _ hex hly x.s).mpr hmem
      rw [matchesAt_congr c c' markerBytes x.s hlen ?_]
      · exact hmx
      · intro j hj1 hj2
        rw [markerBytes_length] at hj2
        rcases hall_reg x hx with hreg | hreg
        · exact helem j (Or.inl (by omega))
        · have hzx := (hzs_all x hx).1
          exact helem j (Or.inr (by omega))
  have hscan : read_int_properties c' =
      some ((pre ++ d :: post).map (recOf c')) := by
    apply scanSteps_layout c' (pre ++ d :: post) c'.length 0 0 (by omega)
      (fun p _ => hex' p) hly'
    intro e _
    omega
  -- translate the produced records back to the unpatched buffer
  have hpre_rec : ∀ x ∈ pre, recOf c' x = recOf c x := by
    intro x hx
    have hreg := hpre_reg x hx
    have hzx := (hzs_all x (List.mem_append.mpr (Or.inl hx))).1
    have hend := loAfter_mem c pre 0 hpre x hx
    rw [recEnd] at hend
    have h1 : sliceN c' (x.z + 1) (x.s - (x.z + 1)) =
        sliceN c (x.z + 1) (x.s - (x.z + 1)) := by
      apply sliceN_congr c c' _ _ hlen
      intro j hj1 hj2
      exact helem j (Or.inl (by omega))
    have h2 : sliceN c' (x.s + 17 + x.L) 4 = sliceN c (x.s + 17 + x.L) 4 := by
      apply sliceN_congr c c' _ _ hlen
      intro j hj1 hj2
      exact helem j (Or.inl (by omega))
    rw [recOf, recOf, h1, h2]
  have hpost_rec : ∀ x ∈ post, recOf c' x = recOf c x := by
    intro x hx
    have hreg := hpost_reg x hx
    have hzx := (hzs_all x (List.mem_append.mpr (Or.inr
      (List.mem_cons_of_mem d hx)))).1
    have h1 : sliceN c' (x.z + 1) (x.s - (x.z + 1)) =
        sliceN c (x.z + 1) (x.s - (x.z + 1)) := by
      apply sliceN_congr c c' _ _ hlen
      intro j hj1 hj2
      exact helem j (Or.inr (by omega))
    have h2 : sliceN c' (x.s + 17 + x.L) 4 = sliceN c (x.s + 17 + x.L) 4 := by
      apply sliceN_congr c c' _ _ hlen
      intro j hj1 hj2
      exact helem j (Or.inr (by omega))
    rw [recOf, recOf, h1, h2]
  have hd_rec : recOf c' d = ⟨(recOf c d).name, v, d.s + 17 + d.L⟩ := by
    have h1 : sliceN c' (d.z + 1) (d.s - (d.z + 1)) =
        sliceN c (d.z + 1) (d.s - (d.z + 1)) := by
      apply sliceN_congr c c' _ _ hlen
      intro j hj1 hj2
      exact helem j (Or.inl (by omega))
    rw [recOf, recOf, h1, hslice, leVal_bytes v, Nat.mod_eq_of_lt hv]
  rw [hscan, List.map_append, List.map_cons, List.map_congr_left hpre_rec,
    List.map_congr_left hpost_rec, hd_rec]

/-- `bufTwo` with the first record's value patched to 100. -/
def bufTwoPatched : List Nat :=
  [65, 0] ++ [65, 65, 65, 65, 65] ++ markerBytes ++ [0] ++ [0, 0, 0, 0] ++ [0]
    ++ [100, 0, 0, 0] ++ [0] ++ [66, 66, 66, 66, 66] ++ markerBytes ++ [0]
    ++ [0, 0, 0, 0] ++ [0] ++ [7, 0, 0, 0]

/-- C4 witness: the amended theorem applied at a concrete two-record
buffer, patching the first record's value to 100. -/
theorem c4_witness :
    (100 : Nat) < 2 ^ 32 ∧
      markersExact bufTwo (([] ++ (⟨7, 1, 0⟩ : RecDesc) :: [⟨34, 28, 0⟩]).map
        RecDesc.s) = true ∧
      layoutOk bufTwo 0 ([] ++ (⟨7, 1, 0⟩ : RecDesc) :: [⟨34, 28, 0⟩]) = true ∧
      overwrite_int bufTwo (((7 : Nat) + 17 + 0 : Nat) : Int) ((100 : Nat) : Int)
        = some bufTwoPatched ∧
      (∀ p, p < bufTwoPatched.length →
        matchesAt bufTwoPatched markerBytes p = true →
        matchesAt bufTwo markerBytes p = true) ∧
      read_int_properties bufTwoPatched =
        some (([] : List RecDesc).map (recOf bufTwo) ++
          (⟨(recOf bufTwo ⟨7, 1, 0⟩).name, 100, 7 + 17 + 0⟩ : PropRecord) ::
            ([⟨34, 28, 0⟩] : List RecDesc).map (recOf bufTwo)) :=
  ⟨by decide, by decide, by decide, by decide, by decide,
    c4_roundtrip_wellformed bufTwo bufTwoPatched [] [⟨34, 28, 0⟩] ⟨7, 1, 0⟩ 100
      (by decide) (by decide) (by decide) (by decide) (by decide)⟩

end Subverse
